import Mathlib

/-!
Verification development for the `next-request` request-validation library.

The library is embedded shallowly: JavaScript runtime values are modelled by
an inductive `JVal`, JavaScript objects by insertion-ordered association
lists, and each source function is translated into an executable Lean
definition that mirrors the original statement by statement.  Integer-keyed
property reordering of JavaScript objects is not modelled; none of the
theorems below depend on it.
-/

/-- JavaScript runtime values, as far as the library's data flow needs them. -/
inductive JVal where
  | jnull
  | jundef
  | jbool (b : Bool)
  | jnum (n : Int)
  | jstr (s : String)
  | jarr (items : List JVal)
  | jobj (fields : List (String × JVal))

open JVal

/-- A JavaScript object: an insertion-ordered association list. -/
abbrev JObj := List (String × JVal)

/-- Property read `o[k]`: `undefined` when the key is absent. -/
def jsGet (o : JObj) (k : String) : JVal :=
  match o.lookup k with
  | some v => v
  | none => JVal.jundef

/-- The `k in o` operator: key presence, regardless of the stored value. -/
def jsHasKey (o : JObj) (k : String) : Bool :=
  (o.lookup k).isSome

/-- Property write `o[k] = v`: overwrite in place, or append a new key. -/
def jsSet (o : JObj) (k : String) (v : JVal) : JObj :=
  match o with
  | [] => [(k, v)]
  | (k', v') :: rest => if k' = k then (k, v) :: rest else (k', v') :: jsSet rest k v

/-- The `delete o[k]` operator. -/
def jsDelete (o : JObj) (k : String) : JObj :=
  o.filter (fun p => p.1 != k)

/-- A value is nullish when it is `null` or `undefined` (the `??` operator's test). -/
def JVal.isNullish : JVal → Bool
  | .jnull => true
  | .jundef => true
  | _ => false

/-- The nullish-coalescing operator `a ?? b`. -/
def jsCoalesce (a b : JVal) : JVal :=
  if a.isNullish then b else a

/-- JavaScript truthiness of a runtime value. -/
def JVal.isTruthy : JVal → Bool
  | .jnull => false
  | .jundef => false
  | .jbool b => b
  | .jnum n => n != 0
  | .jstr s => s != ""
  | .jarr _ => true
  | .jobj _ => true

namespace FormRequest

/-- `FormRequest.input(key, defaultValue)`:
`const value = this.body[key] ?? this.query[key]; return value ?? defaultValue`. -/
def input (body query : JObj) (key : String) (defaultValue : JVal) : JVal :=
  jsCoalesce (jsCoalesce (jsGet body key) (jsGet query key)) defaultValue

/-- `FormRequest.has(key)`: `key in this.body || key in this.query`. -/
def has (body query : JObj) (key : String) : Bool :=
  jsHasKey body key || jsHasKey query key

/-- `FormRequest.only(...keys)`: start from an empty object and copy each
requested key that `has` reports present, using `input` for the value. -/
def only (body query : JObj) (keys : List String) : JObj :=
  keys.foldl
    (fun result key =>
      if has body query key then jsSet result key (input body query key JVal.jundef)
      else result)
    []

/-- `FormRequest.except(...keys)`: copy of `this.body` (only the body) with the
given keys deleted. -/
def except (body : JObj) (keys : List String) : JObj :=
  keys.foldl (fun result key => jsDelete result key) body

/-- Body produced by `FormRequest.fromAppRouter` for a `multipart/form-data`
request: `Object.fromEntries(formData.entries())`, so a repeated field keeps
only its last submitted value. -/
def fromAppRouterMultipartBody (parts : List (String × JVal)) : JObj :=
  parts.foldl (fun acc p => jsSet acc p.1 p.2) []

end FormRequest

/-- The form-data branch of `parseRequestBody` in `withSchema.ts`: fold over the
entries; a repeated key whose current value is truthy becomes an array that
accumulates further values, otherwise the new value overwrites. -/
def parseRequestBodyFormData (parts : List (String × JVal)) : JObj :=
  parts.foldl
    (fun data p =>
      if (jsGet data p.1).isTruthy then
        match jsGet data p.1 with
        | JVal.jarr xs => jsSet data p.1 (JVal.jarr (xs ++ [p.2]))
        | old => jsSet data p.1 (JVal.jarr [old, p.2])
      else jsSet data p.1 p.2)
    []

/-- Claim-side reading of the "merged body+query input": body entries first,
then the query entries whose keys the body does not already carry. -/
def specMergedInput (body query : JObj) : JObj :=
  body ++ query.filter (fun p => !(jsHasKey body p.1))

/-- Claim-side `except`: the merged body+query input minus the given keys. -/
def specExceptMerged (body query : JObj) (keys : List String) : JObj :=
  (specMergedInput body query).filter (fun p => !(keys.contains p.1))

theorem lookup_cons {α : Type} (l : List (String × α)) (k k' : String) (v : α) :
    List.lookup k ((k', v) :: l) = if k = k' then some v else List.lookup k l := by
  by_cases h : k = k'
  · subst h
    simp [List.lookup]
  · simp [List.lookup, h, beq_eq_false_iff_ne.mpr h]

theorem lookup_jsSet (o : JObj) (key k : String) (v : JVal) :
    List.lookup k (jsSet o key v) = if k = key then some v else List.lookup k o := by
  induction o with
  | nil => simp [jsSet, lookup_cons, List.lookup_nil]
  | cons p rest ih =>
      obtain ⟨k', v'⟩ := p
      by_cases h1 : k' = key
      · subst h1
        simp only [jsSet, if_pos rfl, lookup_cons]
        by_cases h2 : k = k' <;> simp [h2, lookup_cons]
      · simp only [jsSet, if_neg h1, lookup_cons]
        by_cases h2 : k = k'
        · subst h2
          rw [if_pos rfl, if_pos rfl, if_neg h1]
        · rw [if_neg h2, if_neg h2, ih]

theorem lookup_jsDelete (o : JObj) (key k : String) :
    List.lookup k (jsDelete o key) = if k = key then none else List.lookup k o := by
  induction o with
  | nil => simp [jsDelete, List.lookup]
  | cons p rest ih =>
      obtain ⟨k', v'⟩ := p
      by_cases h1 : k' = key
      · subst h1
        have hdrop : jsDelete ((k', v') :: rest) k' = jsDelete rest k' := by
          simp [jsDelete, List.filter_cons]
        rw [hdrop, ih]
        by_cases h2 : k = k' <;> simp [h2, lookup_cons]
      · have hkeep : jsDelete ((k', v') :: rest) key = (k', v') :: jsDelete rest key := by
          simp [jsDelete, List.filter_cons, bne_iff_ne, h1]
        rw [hkeep, lookup_cons, ih]
        by_cases h2 : k = k'
        · subst h2
          simp [h1, lookup_cons]
        · simp [h2, lookup_cons]

theorem lookup_except (body : JObj) (keys : List String) (k : String) :
    List.lookup k (FormRequest.except body keys) =
      if k ∈ keys then none else List.lookup k body := by
  induction keys generalizing body with
  | nil => simp [FormRequest.except]
  | cons key rest ih =>
      show List.lookup k (FormRequest.except (jsDelete body key) rest) = _
      rw [ih]
      by_cases h1 : k ∈ rest
      · simp [h1]
      · by_cases h2 : k = key <;> simp [h1, h2, lookup_jsDelete]

theorem lookup_only (body query : JObj) (keys : List String) (k : String) :
    List.lookup k (FormRequest.only body query keys) =
      if k ∈ keys ∧ FormRequest.has body query k = true
      then some (FormRequest.input body query k JVal.jundef) else none := by
  suffices h : ∀ acc : JObj,
      List.lookup k
        (keys.foldl
          (fun result key =>
            if FormRequest.has body query key then
              jsSet result key (FormRequest.input body query key JVal.jundef)
            else result)
          acc) =
        if k ∈ keys ∧ FormRequest.has body query k = true
        then some (FormRequest.input body query k JVal.jundef) else List.lookup k acc by
    have := h []
    simpa [FormRequest.only] using this
  induction keys with
  | nil => simp
  | cons key rest ih =>
      intro acc
      simp only [List.foldl_cons]
      rw [ih]
      by_cases hmem : k ∈ rest ∧ FormRequest.has body query k = true
      · simp [hmem, hmem.1, hmem.2, List.mem_cons]
      · by_cases heq : k = key
        · subst heq
          by_cases hk : FormRequest.has body query k = true
          · simp [hmem, hk, lookup_jsSet, List.mem_cons]
          · have hk' : FormRequest.has body query k = false := by simpa using hk
            simp [hmem, hk', List.mem_cons]
        · have hcond : ¬(k ∈ key :: rest ∧ FormRequest.has body query k = true) := by
            rintro ⟨hm, hh⟩
            rcases List.mem_cons.mp hm with rfl | hm
            · exact heq rfl
            · exact hmem ⟨hm, hh⟩
          by_cases hkey : FormRequest.has body query key = true
          · simp [hmem, hcond, hkey, lookup_jsSet, heq]
          · have hkey' : FormRequest.has body query key = false := by simpa using hkey
            have hfoldacc :
                (if FormRequest.has body query key = true then
                  jsSet acc key (FormRequest.input body query key JVal.jundef)
                else acc) = acc := by
              rw [hkey']
              simp
            rw [hfoldacc, if_neg hmem, if_neg hcond]

/-- C8 counterexample: `except` operates on the body alone, so with an empty
body and a non-empty query, `except(["b"])` is empty while the claimed
"merged body+query input minus the given keys" still carries the query key. -/
theorem except_ignores_query_counterexample :
    FormRequest.except ([] : JObj) ["b"] ≠ specExceptMerged [] [("a", jstr "1")] ["b"] := by
  intro h
  exact absurd (congrArg List.length h) (by decide)

/-- C8 (amended): `has(key)` is true iff the key occurs in the body or the
query; `input(key, default)` returns the body value, falling back to the query
value when the body value is nullish and to the default when both are nullish;
`only(keys)` contains exactly the requested present keys with their merged
`input` values; and `except(keys)` returns a copy of the body only — not the
merged body+query input — minus the given keys. -/
theorem FormRequest.accessor_semantics (body query : JObj) (key : String)
    (defaultValue : JVal) (keys : List String) :
    (FormRequest.has body query key = true ↔
      (List.lookup key body).isSome = true ∨ (List.lookup key query).isSome = true)
    ∧ FormRequest.input body query key defaultValue =
        (if (jsGet body key).isNullish = false then jsGet body key
         else if (jsGet query key).isNullish = false then jsGet query key
         else defaultValue)
    ∧ List.lookup key (FormRequest.only body query keys) =
        (if key ∈ keys ∧ FormRequest.has body query key = true
         then some (FormRequest.input body query key JVal.jundef) else none)
    ∧ List.lookup key (FormRequest.except body keys) =
        (if key ∈ keys then none else List.lookup key body) := by
  refine ⟨?_, ?_, lookup_only body query keys key, lookup_except body keys key⟩
  · simp [FormRequest.has, jsHasKey, Bool.or_eq_true]
  · unfold FormRequest.input jsCoalesce
    by_cases h1 : (jsGet body key).isNullish <;>
      by_cases h2 : (jsGet query key).isNullish <;> simp [h1, h2]

/-- C2 counterexample: in `FormRequest.fromAppRouter`, a multipart submission
with two parts both named `tags` (values `a` then `b`) does not produce the
array `["a","b"]` — `Object.fromEntries` keeps only the last value. -/
theorem fromAppRouter_multipart_counterexample :
    jsGet (FormRequest.fromAppRouterMultipartBody [("tags", jstr "a"), ("tags", jstr "b")])
        "tags"
      ≠ jarr [jstr "a", jstr "b"] := by
  intro h
  have h' : jstr "b" = jarr [jstr "a", jstr "b"] := h
  exact JVal.noConfusion h'

/-- C2 (amended): for the two-part `tags` multipart submission,
`fromAppRouter` keeps the last value (`body.tags === "b"`), while the
schema-only wrapper's `parseRequestBody` collects the repeated field into the
array `["a","b"]`. -/
theorem multipart_repeated_field_semantics :
    jsGet (FormRequest.fromAppRouterMultipartBody [("tags", jstr "a"), ("tags", jstr "b")])
        "tags"
      = jstr "b"
    ∧ jsGet (parseRequestBodyFormData [("tags", jstr "a"), ("tags", jstr "b")]) "tags"
      = jarr [jstr "a", jstr "b"] :=
  ⟨rfl, rfl⟩

-- Sanity examples exercising the accessor embedding on concrete inputs.
example :
    FormRequest.input [("a", jstr "x")] [("a", jstr "y")] "a" JVal.jundef = jstr "x" := rfl

example :
    FormRequest.input [("a", JVal.jnull)] [("a", jstr "y")] "a" JVal.jundef = jstr "y" := rfl

example : FormRequest.except [("a", jstr "x"), ("b", jstr "y")] ["b"] = [("a", jstr "x")] := rfl

example :
    parseRequestBodyFormData [("tags", jstr "a"), ("tags", jstr "b")]
      = [("tags", jarr [jstr "a", jstr "b"])] := rfl

example :
    FormRequest.fromAppRouterMultipartBody [("tags", jstr "a"), ("tags", jstr "b")]
      = [("tags", jstr "b")] := rfl

/-! Rate limiting (`src/utils/rateLimit.ts`). -/

/-- Association-list write, shared by the in-memory stores (`Map.set` /
in-place mutation of a looked-up entry). -/
def assocSet {α : Type} (l : List (String × α)) (k : String) (v : α) :
    List (String × α) :=
  match l with
  | [] => [(k, v)]
  | (k', v') :: rest => if k' = k then (k, v) :: rest else (k', v') :: assocSet rest k v

theorem lookup_assocSet {α : Type} (l : List (String × α)) (key k : String) (v : α) :
    List.lookup k (assocSet l key v) = if k = key then some v else List.lookup k l := by
  induction l with
  | nil => simp [assocSet, lookup_cons, List.lookup_nil]
  | cons p rest ih =>
      obtain ⟨k', v'⟩ := p
      by_cases h1 : k' = key
      · subst h1
        simp only [assocSet, if_pos rfl, lookup_cons]
        by_cases h2 : k = k' <;> simp [h2, lookup_cons]
      · simp only [assocSet, if_neg h1, lookup_cons]
        by_cases h2 : k = k'
        · subst h2
          rw [if_pos rfl, if_pos rfl, if_neg h1]
        · rw [if_neg h2, if_neg h2, ih]

/-- `RateLimitState`: count of requests in the current window plus the
timestamp at which the window resets. -/
structure RateLimitState where
  count : Int
  resetAt : Int
deriving DecidableEq

/-- `RateLimitResult` returned by `checkRateLimit`. -/
structure RateLimitResult where
  allowed : Bool
  remaining : Int
  limit : Int
  resetAt : Int
  retryAfter : Int
deriving DecidableEq

/-- `RateLimitConfig`, with the request-dependent parts already resolved:
`keyString` is the value of `config.key(request)` (or the derived client IP),
and `skipResult` is `some b` when a `skip` predicate is configured and
resolves to `b`, `none` when no predicate is configured. -/
structure RateLimitConfig where
  maxAttempts : Int
  windowMs : Int
  keyString : String
  skipResult : Option Bool
deriving DecidableEq

/-- The in-memory store of `MemoryRateLimitStore`: its backing `Map`. -/
abbrev MemoryStore := List (String × RateLimitState)

/-- Store operations a `checkRateLimit` call performs on the backing store. -/
inductive StoreCall where
  | increment (key : String)
  | set (key : String)
deriving DecidableEq

/-- `MemoryRateLimitStore.increment(key, windowMs)` at instant `now`
(`Date.now()`): start a fresh window when the key is absent or expired,
otherwise bump the stored count in place. -/
def MemoryRateLimitStore.increment (store : MemoryStore) (key : String)
    (windowMs now : Int) : RateLimitState × MemoryStore :=
  match store.lookup key with
  | none =>
      let state : RateLimitState := ⟨1, now + windowMs⟩
      (state, assocSet store key state)
  | some existing =>
      if now > existing.resetAt then
        let state : RateLimitState := ⟨1, now + windowMs⟩
        (state, assocSet store key state)
      else
        let state : RateLimitState := ⟨existing.count + 1, existing.resetAt⟩
        (state, assocSet store key state)

/-- `Math.ceil(a / 1000)` on integer milliseconds (`/` is floor division and
`1000 > 0`, so adding `999` yields the ceiling). -/
def msCeilSeconds (a : Int) : Int :=
  (a + 999) / 1000

/-- `checkRateLimit(request, config)`.  Time is an explicit parameter; the two
`Date.now()` readings inside one call are modelled as the same instant.  The
result is paired with the updated store and the log of store operations the
call performed. -/
def checkRateLimit (now : Int) (config : RateLimitConfig) (store : MemoryStore) :
    RateLimitResult × MemoryStore × List StoreCall :=
  if config.skipResult = some true then
    (⟨true, config.maxAttempts, config.maxAttempts, now + config.windowMs, 0⟩, store, [])
  else
    let fullKey := "ratelimit:" ++ config.keyString
    let res := MemoryRateLimitStore.increment store fullKey config.windowMs now
    let state := res.1
    let allowed := decide (state.count ≤ config.maxAttempts)
    let remaining := max 0 (config.maxAttempts - state.count)
    let retryAfter := if allowed then 0 else msCeilSeconds (state.resetAt - now)
    (⟨allowed, remaining, config.maxAttempts, state.resetAt, retryAfter⟩,
      res.2, [StoreCall.increment fullKey])

/-- Sequential runs of `checkRateLimit`, threading the store through a list of
request instants. -/
def runStore (config : RateLimitConfig) (store : MemoryStore) : List Int → MemoryStore
  | [] => store
  | t :: rest => runStore config (checkRateLimit t config store).2.1 rest

/-- The result of the `k`-th request (1-based) of a sequence of requests at
the given instants, starting from the given store. -/
def nthRateLimitResult (config : RateLimitConfig) (store₀ : MemoryStore)
    (times : List Int) (k : Nat) : RateLimitResult :=
  (checkRateLimit (times.getD (k - 1) 0) config
    (runStore config store₀ (times.take (k - 1)))).1

/-- C10: when the configured `skip` predicate resolves to true,
`checkRateLimit` answers allowed with `remaining = limit = maxAttempts` and
`retryAfter = 0`, leaves the store unchanged, and performs no store call. -/
theorem checkRateLimit_skip_frame (now : Int) (config : RateLimitConfig)
    (store : MemoryStore) (hskip : config.skipResult = some true) :
    checkRateLimit now config store =
      (⟨true, config.maxAttempts, config.maxAttempts, now + config.windowMs, 0⟩,
        store, []) := by
  unfold checkRateLimit
  rw [if_pos hskip]

/-- Witness for `checkRateLimit_skip_frame` at concrete inputs. -/
theorem checkRateLimit_skip_frame_witness :
    checkRateLimit 7 ⟨5, 1000, "user", some true⟩ [("ratelimit:user", ⟨3, 900⟩)] =
      (⟨true, 5, 5, 1007, 0⟩, [("ratelimit:user", ⟨3, 900⟩)], []) :=
  checkRateLimit_skip_frame 7 ⟨5, 1000, "user", some true⟩
    [("ratelimit:user", ⟨3, 900⟩)] rfl

theorem getD_mem_of_lt {α : Type} (l : List α) (n : Nat) (d : α) (h : n < l.length) :
    l.getD n d ∈ l := by
  induction l generalizing n with
  | nil => simp at h
  | cons a l ih =>
      cases n with
      | zero => simp
      | succ n =>
          simp only [List.getD_cons_succ]
          exact List.mem_cons_of_mem _ (ih n (by simpa using h))

theorem msCeilSeconds_pos (a : Int) (h : 1 ≤ a) : 0 < msCeilSeconds a := by
  have h2 := Int.le_ediv_iff_mul_le (a := 1) (b := a + 999) (c := 1000) (by norm_num)
  have h3 : 1 ≤ (a + 999) / 1000 := h2.mpr (by omega)
  unfold msCeilSeconds
  exact lt_of_lt_of_le zero_lt_one h3

/-- Requests whose instants stay at or before the stored `resetAt` keep
incrementing the same window: after running them all, the stored count has
grown by their number and the reset instant is unchanged. -/
theorem runStore_lookup_inWindow (config : RateLimitConfig)
    (hskip : ¬ config.skipResult = some true) :
    ∀ (ts : List Int) (store : MemoryStore) (c R : Int),
      List.lookup ("ratelimit:" ++ config.keyString) store = some ⟨c, R⟩ →
      (∀ t ∈ ts, t ≤ R) →
      List.lookup ("ratelimit:" ++ config.keyString) (runStore config store ts) =
        some ⟨c + ts.length, R⟩
  | [], store, c, R, h, _ => by simpa [runStore] using h
  | t :: rest, store, c, R, h, hin => by
      have ht : t ≤ R := hin t (List.mem_cons_self t rest)
      have hnot : ¬ t > R := by omega
      have hstep : (checkRateLimit t config store).2.1
          = assocSet store ("ratelimit:" ++ config.keyString) ⟨c + 1, R⟩ := by
        simp [checkRateLimit, hskip, MemoryRateLimitStore.increment, h, hnot]
      have hrec := runStore_lookup_inWindow config hskip rest
          (assocSet store ("ratelimit:" ++ config.keyString) ⟨c + 1, R⟩) (c + 1) R
          (by rw [lookup_assocSet]; simp)
          (fun t' ht' => hin t' (List.mem_cons_of_mem _ ht'))
      show List.lookup _ (runStore config (checkRateLimit t config store).2.1 rest) = _
      rw [hstep, hrec]
      congr 2
      simp only [List.length_cons]
      push_cast
      ring

/-- C3: for requests sharing one key inside one window (every instant strictly
before the window's reset time), the `k`-th request sees count `k`: above
`maxAttempts` it is rejected with `remaining = 0` and `retryAfter > 0`, and at
or below `maxAttempts` it is allowed with `remaining = maxAttempts - k`. -/
theorem rateLimit_window_attempt_results (M W t₁ : Int) (keyStr : String)
    (ts : List Int) (store₀ : MemoryStore) (k : Nat)
    (hfresh : List.lookup ("ratelimit:" ++ keyStr) store₀ = none)
    (hwin : ∀ t ∈ (t₁ :: ts), t < t₁ + W)
    (hk1 : 1 ≤ k) (hk2 : k ≤ (t₁ :: ts).length) :
    (M < (k : Int) →
        (nthRateLimitResult ⟨M, W, keyStr, none⟩ store₀ (t₁ :: ts) k).allowed = false ∧
        (nthRateLimitResult ⟨M, W, keyStr, none⟩ store₀ (t₁ :: ts) k).remaining = 0 ∧
        0 < (nthRateLimitResult ⟨M, W, keyStr, none⟩ store₀ (t₁ :: ts) k).retryAfter)
    ∧ ((k : Int) ≤ M →
        (nthRateLimitResult ⟨M, W, keyStr, none⟩ store₀ (t₁ :: ts) k).allowed = true ∧
        (nthRateLimitResult ⟨M, W, keyStr, none⟩ store₀ (t₁ :: ts) k).remaining
          = M - k) := by
  obtain ⟨k', rfl⟩ : ∃ k', k = k' + 1 := ⟨k - 1, by omega⟩
  have hskip : ¬ (⟨M, W, keyStr, none⟩ : RateLimitConfig).skipResult = some true := by
    simp
  have htk_lt : (t₁ :: ts).getD k' 0 < t₁ + W := by
    refine hwin _ (getD_mem_of_lt _ _ _ ?_)
    simp only [List.length_cons] at hk2 ⊢
    omega
  -- The state produced by the increment inside the (k'+1)-th call.
  have hstate :
      (MemoryRateLimitStore.increment
          (runStore ⟨M, W, keyStr, none⟩ store₀ ((t₁ :: ts).take k'))
          ("ratelimit:" ++ keyStr) W ((t₁ :: ts).getD k' 0)).1
        = ⟨(k' : Int) + 1, t₁ + W⟩ := by
    cases k' with
    | zero =>
        simp only [List.take_zero, runStore, List.getD_cons_zero]
        simp [MemoryRateLimitStore.increment, hfresh]
    | succ j =>
        have hj : j < ts.length := by
          simp only [List.length_cons] at hk2
          omega
        have hstep1 : (checkRateLimit t₁ ⟨M, W, keyStr, none⟩ store₀).2.1
            = assocSet store₀ ("ratelimit:" ++ keyStr) ⟨1, t₁ + W⟩ := by
          simp [checkRateLimit, MemoryRateLimitStore.increment, hfresh]
        have hpre :
            List.lookup ("ratelimit:" ++ keyStr)
              (runStore ⟨M, W, keyStr, none⟩ store₀ ((t₁ :: ts).take (j + 1)))
              = some ⟨1 + (ts.take j).length, t₁ + W⟩ := by
          rw [List.take_succ_cons]
          show List.lookup _
            (runStore _ (checkRateLimit t₁ ⟨M, W, keyStr, none⟩ store₀).2.1
              (ts.take j)) = _
          rw [hstep1]
          exact runStore_lookup_inWindow ⟨M, W, keyStr, none⟩ hskip (ts.take j) _ 1
            (t₁ + W) (by rw [lookup_assocSet]; simp)
            (fun t' ht' =>
              le_of_lt (hwin t' (List.mem_cons_of_mem _ (List.take_subset j ts ht'))))
        have hlen : (ts.take j).length = j := by
          simp [List.length_take]
          omega
        have htle : ¬ (t₁ :: ts).getD (j + 1) 0 > t₁ + W := by
          have := htk_lt
          omega
        simp only [MemoryRateLimitStore.increment, hpre, hlen]
        rw [if_neg htle]
        push_cast
        ring_nf
  -- Shape of the (k'+1)-th result.
  have hres : nthRateLimitResult ⟨M, W, keyStr, none⟩ store₀ (t₁ :: ts) (k' + 1) =
      ⟨decide ((k' : Int) + 1 ≤ M), max 0 (M - ((k' : Int) + 1)), M, t₁ + W,
        if decide ((k' : Int) + 1 ≤ M) then 0
        else msCeilSeconds (t₁ + W - (t₁ :: ts).getD k' 0)⟩ := by
    unfold nthRateLimitResult
    simp only [Nat.add_sub_cancel]
    unfold checkRateLimit
    rw [if_neg hskip]
    simp only [hstate]
  rw [hres]
  constructor
  · intro hover
    have hd : decide ((k' : Int) + 1 ≤ M) = false := by
      simp only [decide_eq_false_iff_not]
      push_cast at hover ⊢
      omega
    refine ⟨by simp [hd], ?_, ?_⟩
    · simp only [hd]
      rw [max_eq_left (by push_cast at hover ⊢; omega)]
    · simp only [hd, if_false]
      exact msCeilSeconds_pos _ (by omega)
  · intro hunder
    have hd : decide ((k' : Int) + 1 ≤ M) = true := by
      simp only [decide_eq_true_eq]
      push_cast at hunder ⊢
      omega
    refine ⟨by simp [hd], ?_⟩
    simp only [hd]
    rw [max_eq_right (by push_cast at hunder ⊢; omega)]
    push_cast
    ring

/-- Witness for `rateLimit_window_attempt_results`: three requests at instants
0, 1, 2 against `maxAttempts = 2`, `windowMs = 1000`; the 3rd is rejected with
`remaining = 0` and positive `retryAfter`, the 2nd is allowed with
`remaining = 0 = maxAttempts - 2`. -/
theorem rateLimit_window_attempt_results_witness :
    (nthRateLimitResult ⟨2, 1000, "ip", none⟩ [] [0, 1, 2] 3).allowed = false
    ∧ (nthRateLimitResult ⟨2, 1000, "ip", none⟩ [] [0, 1, 2] 3).remaining = 0
    ∧ 0 < (nthRateLimitResult ⟨2, 1000, "ip", none⟩ [] [0, 1, 2] 3).retryAfter
    ∧ (nthRateLimitResult ⟨2, 1000, "ip", none⟩ [] [0, 1, 2] 2).allowed = true
    ∧ (nthRateLimitResult ⟨2, 1000, "ip", none⟩ [] [0, 1, 2] 2).remaining = 0 := by
  have h3 := rateLimit_window_attempt_results 2 1000 0 "ip" [1, 2] [] 3 rfl
      (by decide) (by decide) (by decide)
  have h2 := rateLimit_window_attempt_results 2 1000 0 "ip" [1, 2] [] 2 rfl
      (by decide) (by decide) (by decide)
  obtain ⟨ha, hb, hc⟩ := h3.1 (by decide)
  obtain ⟨hd, he⟩ := h2.2 (by decide)
  refine ⟨ha, hb, hc, hd, ?_⟩
  rw [he]
  decide

/-! The validation pipeline of `FormRequest.validate` (`src/core/FormRequest.ts`). -/

/-- `ValidationErrors`: field name to ordered list of error messages. -/
abbrev ValidationErrors := List (String × List String)

/-- `ValidationResult` of a `ValidatorAdapter.validate` call.  A success whose
`data` the adapter did not set is JavaScript `undefined`. -/
structure ValidationResultJ where
  success : Bool
  data : JVal := JVal.jundef
  errors : Option ValidationErrors := none

/-- A concrete `FormRequest` subtype with the resolved behaviour of its hooks:
`rateLimit`/`authorize`/`coercion` are the values their (possibly async)
calls resolve to, `beforeValidation` is the body transformation the hook
performs in place, and `validate` is `rules().validate` with the instance's
messages/attributes already bound.  `coercionOpts` carries the function
`coerceFormData(·, options)` for the configured options; no claim depends on
the coercion utility's internals, so it stays opaque. -/
structure FRConfig where
  rateLimit : Option RateLimitConfig
  authorize : Bool
  coercionOpts : Option (JObj → JObj)
  beforeValidation : JObj → JObj
  validate : JObj → ValidationResultJ

/-- Pipeline stages, recorded in execution order. -/
inductive Stage where
  | rateLimitCheck
  | authorizeCall
  | onAuthorizationFailedHook
  | coerceBody
  | beforeValidationHook
  | adapterValidate
  | onValidationFailedHook
  | afterValidationHook
deriving DecidableEq

/-- The four possible results of one `validate()` run. -/
inductive ValidateOutcome where
  | rateLimited (result : RateLimitResult)
  | unauthorized
  | validationFailed (errors : ValidationErrors)
  | success (data : JVal)

/-- Mutable per-instance state of a `FormRequest`: the body plus the
`_validated` and `_safe` fields (`_validated` is initialised to `null`). -/
structure FRState where
  body : JObj
  validatedJ : JVal := JVal.jnull
  safeJ : JVal := JVal.jobj []

/-- The tail of `FormRequest.validate` after the rate-limit stage: authorize,
coercion, `beforeValidation`, the adapter's validate, and the success/failure
hooks, threading the body and appending each executed stage to the trace. -/
def FormRequest.validateFromAuthorize (cfg : FRConfig) (st₀ : FRState)
    (store : MemoryStore) (tr : List Stage) :
    ValidateOutcome × FRState × MemoryStore × List Stage :=
  if cfg.authorize = false then
    (.unauthorized, st₀, store, tr ++ [Stage.authorizeCall, Stage.onAuthorizationFailedHook])
  else
    let tr₁ := tr ++ [Stage.authorizeCall]
    let step₂ : JObj × List Stage :=
      match cfg.coercionOpts with
      | some coerce => (coerce st₀.body, tr₁ ++ [Stage.coerceBody])
      | none => (st₀.body, tr₁)
    let body₂ := cfg.beforeValidation step₂.1
    let tr₃ := step₂.2 ++ [Stage.beforeValidationHook]
    let result := cfg.validate body₂
    let tr₄ := tr₃ ++ [Stage.adapterValidate]
    if result.success = false then
      let errors := result.errors.getD [("_error", ["Validation failed"])]
      (.validationFailed errors, { st₀ with body := body₂ }, store,
        tr₄ ++ [Stage.onValidationFailedHook])
    else
      (.success result.data,
        { body := body₂, validatedJ := result.data, safeJ := result.data },
        store, tr₄ ++ [Stage.afterValidationHook])

/-- `FormRequest.validate()`: rate-limit stage first (when configured),
short-circuiting on an over-limit result, then the rest of the pipeline. -/
def FormRequest.validate (cfg : FRConfig) (now : Int) (store₀ : MemoryStore)
    (st₀ : FRState) : ValidateOutcome × FRState × MemoryStore × List Stage :=
  match cfg.rateLimit with
  | some rlConfig =>
      let chk := checkRateLimit now rlConfig store₀
      if chk.1.allowed = false then
        (.rateLimited chk.1, st₀, chk.2.1, [Stage.rateLimitCheck])
      else
        FormRequest.validateFromAuthorize cfg st₀ chk.2.1 [Stage.rateLimitCheck]
  | none => FormRequest.validateFromAuthorize cfg st₀ store₀ []

/-- The message of the plain `Error` thrown by `FormRequest.validated()`. -/
def validatedErrorMessage : String :=
  "Cannot access validated data before calling validate(). " ++
    "Call validate() first and handle any errors."

/-- `FormRequest.validated()`: a plain `Error` (not one of the three typed
pipeline failures) while `_validated === null`, the stored value otherwise. -/
def FormRequest.validated (st : FRState) : Except String JVal :=
  match st.validatedJ with
  | JVal.jnull => Except.error validatedErrorMessage
  | v => Except.ok v

/-- Outcome of one run. -/
def validateOutcome (cfg : FRConfig) (now : Int) (store₀ : MemoryStore)
    (st₀ : FRState) : ValidateOutcome :=
  (FormRequest.validate cfg now store₀ st₀).1

/-- Instance state after one run. -/
def validateState (cfg : FRConfig) (now : Int) (store₀ : MemoryStore)
    (st₀ : FRState) : FRState :=
  (FormRequest.validate cfg now store₀ st₀).2.1

/-- Stage trace of one run. -/
def validateTrace (cfg : FRConfig) (now : Int) (store₀ : MemoryStore)
    (st₀ : FRState) : List Stage :=
  (FormRequest.validate cfg now store₀ st₀).2.2.2

/-- Trace contribution of the rate-limit stage. -/
def rlTrace (cfg : FRConfig) : List Stage :=
  match cfg.rateLimit with
  | some _ => [Stage.rateLimitCheck]
  | none => []

/-- Trace contribution of the coercion stage. -/
def coerceTrace (cfg : FRConfig) : List Stage :=
  match cfg.coercionOpts with
  | some _ => [Stage.coerceBody]
  | none => []

/-- C1: the pipeline stages run strictly in the order rate-limit check,
authorize, coercion, `beforeValidation`, adapter validate, then
`afterValidation` on success, short-circuiting on the first failure; in
particular, whenever `authorize()` resolves false (and the rate-limit stage,
when configured, allows the request), the run invokes
`onAuthorizationFailed()`, fails with the Authorization outcome, and never
calls the adapter's validate — no assumption is made on the schema result, so
this holds even when the submitted body would pass the schema. -/
theorem validate_stage_order (cfg : FRConfig) (now : Int) (store₀ : MemoryStore)
    (st₀ : FRState) :
    (∀ rl, validateOutcome cfg now store₀ st₀ = .rateLimited rl →
        validateTrace cfg now store₀ st₀ = [Stage.rateLimitCheck])
    ∧ (validateOutcome cfg now store₀ st₀ = .unauthorized →
        validateTrace cfg now store₀ st₀ =
          rlTrace cfg ++ [Stage.authorizeCall, Stage.onAuthorizationFailedHook])
    ∧ (∀ errs, validateOutcome cfg now store₀ st₀ = .validationFailed errs →
        validateTrace cfg now store₀ st₀ =
          rlTrace cfg ++ [Stage.authorizeCall] ++ coerceTrace cfg
            ++ [Stage.beforeValidationHook, Stage.adapterValidate,
                Stage.onValidationFailedHook])
    ∧ (∀ d, validateOutcome cfg now store₀ st₀ = .success d →
        validateTrace cfg now store₀ st₀ =
          rlTrace cfg ++ [Stage.authorizeCall] ++ coerceTrace cfg
            ++ [Stage.beforeValidationHook, Stage.adapterValidate,
                Stage.afterValidationHook])
    ∧ (cfg.authorize = false →
        (∀ rlConfig, cfg.rateLimit = some rlConfig →
            (checkRateLimit now rlConfig store₀).1.allowed = true) →
        validateOutcome cfg now store₀ st₀ = .unauthorized
        ∧ Stage.adapterValidate ∉ validateTrace cfg now store₀ st₀
        ∧ Stage.onAuthorizationFailedHook ∈ validateTrace cfg now store₀ st₀) := by
  unfold validateOutcome validateTrace FormRequest.validate
    FormRequest.validateFromAuthorize rlTrace coerceTrace
  cases hrl : cfg.rateLimit with
  | none =>
      cases hauth : cfg.authorize with
      | false =>
          refine ⟨by simp, by simp, by simp, by simp, ?_⟩
          intro _ _
          simp
      | true =>
          cases hc : cfg.coercionOpts with
          | none =>
              by_cases hs : (cfg.validate (cfg.beforeValidation st₀.body)).success = false
              · refine ⟨by simp [hs], by simp [hs], by simp [hs], by simp [hs], ?_⟩
                intro hfalse _
                simp at hfalse
              · refine ⟨by simp [hs], by simp [hs], by simp [hs], by simp [hs], ?_⟩
                intro hfalse _
                simp at hfalse
          | some coerce =>
              by_cases hs : (cfg.validate (cfg.beforeValidation (coerce st₀.body))).success
                  = false
              · refine ⟨by simp [hs], by simp [hs], by simp [hs], by simp [hs], ?_⟩
                intro hfalse _
                simp at hfalse
              · refine ⟨by simp [hs], by simp [hs], by simp [hs], by simp [hs], ?_⟩
                intro hfalse _
                simp at hfalse
  | some rlConfig =>
      by_cases hallow : (checkRateLimit now rlConfig store₀).1.allowed = false
      · refine ⟨by simp [hallow], by simp [hallow], by simp [hallow], by simp [hallow], ?_⟩
        intro _ hall
        exact absurd (hall rlConfig rfl) (by simp [hallow])
      · cases hauth : cfg.authorize with
        | false =>
            refine ⟨by simp [hallow], by simp [hallow], by simp [hallow],
              by simp [hallow], ?_⟩
            intro _ _
            simp [hallow]
        | true =>
            cases hc : cfg.coercionOpts with
            | none =>
                by_cases hs : (cfg.validate (cfg.beforeValidation st₀.body)).success = false
                · refine ⟨by simp [hallow, hs], by simp [hallow, hs], by simp [hallow, hs],
                    by simp [hallow, hs], ?_⟩
                  intro hfalse _
                  simp at hfalse
                · refine ⟨by simp [hallow, hs], by simp [hallow, hs], by simp [hallow, hs],
                    by simp [hallow, hs], ?_⟩
                  intro hfalse _
                  simp at hfalse
            | some coerce =>
                by_cases hs : (cfg.validate (cfg.beforeValidation (coerce st₀.body))).success
                    = false
                · refine ⟨by simp [hallow, hs], by simp [hallow, hs], by simp [hallow, hs],
                    by simp [hallow, hs], ?_⟩
                  intro hfalse _
                  simp at hfalse
                · refine ⟨by simp [hallow, hs], by simp [hallow, hs], by simp [hallow, hs],
                    by simp [hallow, hs], ?_⟩
                  intro hfalse _
                  simp at hfalse

/-- A concrete subtype whose `authorize()` resolves false while its schema
would accept the body. -/
def deniedRequestConfig : FRConfig :=
  { rateLimit := none
    authorize := false
    coercionOpts := none
    beforeValidation := fun b => b
    validate := fun _ => ⟨true, jstr "ok", none⟩ }

/-- Witness for `validate_stage_order`: with `authorize()` false and a schema
that would accept the body, the run is unauthorized, never reaches the
adapter, and invokes the authorization-failure hook. -/
theorem validate_stage_order_witness :
    validateOutcome deniedRequestConfig 0 []
        ⟨[("email", jstr "a@b.c")], JVal.jnull, JVal.jobj []⟩ = ValidateOutcome.unauthorized
    ∧ Stage.adapterValidate ∉
        validateTrace deniedRequestConfig 0 []
          ⟨[("email", jstr "a@b.c")], JVal.jnull, JVal.jobj []⟩
    ∧ Stage.onAuthorizationFailedHook ∈
        validateTrace deniedRequestConfig 0 []
          ⟨[("email", jstr "a@b.c")], JVal.jnull, JVal.jobj []⟩ :=
  (validate_stage_order deniedRequestConfig 0 []
      ⟨[("email", jstr "a@b.c")], JVal.jnull, JVal.jobj []⟩).2.2.2.2 rfl
    (fun _ h => Option.noConfusion h)

theorem validated_of_ne_null (st : FRState) (h : ¬ st.validatedJ = JVal.jnull) :
    FormRequest.validated st = Except.ok st.validatedJ := by
  unfold FormRequest.validated
  cases hv : st.validatedJ <;> simp_all

/-- A validator that succeeds with `null` as the validated value. -/
def nullDataConfig : FRConfig :=
  { rateLimit := none
    authorize := true
    coercionOpts := none
    beforeValidation := fun b => b
    validate := fun _ => ⟨true, JVal.jnull, none⟩ }

/-- C4 counterexample: a run whose validator succeeds with `null` data
completes successfully, yet `validated()` afterwards still throws the
programming error — `null` is also the "not yet validated" sentinel. -/
theorem validated_after_null_success_counterexample :
    validateOutcome nullDataConfig 0 [] ⟨[], JVal.jnull, JVal.jobj []⟩
      = ValidateOutcome.success JVal.jnull
    ∧ FormRequest.validated (validateState nullDataConfig 0 [] ⟨[], JVal.jnull, JVal.jobj []⟩)
      = Except.error validatedErrorMessage :=
  ⟨rfl, rfl⟩

/-- C4 (amended): while `_validated` is still `null` — in particular on a
fresh instance, and after any run that did not succeed, however many times the
other accessors were used (they never write `_validated`) — `validated()`
raises the plain programming `Error`, not one of the three typed pipeline
failures; after a successful run whose validated data is not `null` it
returns the stored validated data (a `null` result keeps `validated()`
throwing, see the counterexample). -/
theorem validated_access_semantics (cfg : FRConfig) (now : Int)
    (store₀ : MemoryStore) (st₀ : FRState) :
    (st₀.validatedJ = JVal.jnull →
      FormRequest.validated st₀ = Except.error validatedErrorMessage)
    ∧ (∀ rl, validateOutcome cfg now store₀ st₀ = .rateLimited rl →
        (validateState cfg now store₀ st₀).validatedJ = st₀.validatedJ)
    ∧ (validateOutcome cfg now store₀ st₀ = .unauthorized →
        (validateState cfg now store₀ st₀).validatedJ = st₀.validatedJ)
    ∧ (∀ errs, validateOutcome cfg now store₀ st₀ = .validationFailed errs →
        (validateState cfg now store₀ st₀).validatedJ = st₀.validatedJ)
    ∧ (∀ d, validateOutcome cfg now store₀ st₀ = .success d → ¬ d = JVal.jnull →
        FormRequest.validated (validateState cfg now store₀ st₀) = Except.ok d) := by
  refine ⟨fun h => by simp [FormRequest.validated, h], ?_⟩
  unfold validateOutcome validateState FormRequest.validate
    FormRequest.validateFromAuthorize
  cases hrl : cfg.rateLimit with
  | none =>
      cases hauth : cfg.authorize with
      | false =>
          exact ⟨by simp, by simp, by simp, by simp⟩
      | true =>
          cases hc : cfg.coercionOpts with
          | none =>
              by_cases hs : (cfg.validate (cfg.beforeValidation st₀.body)).success = false
              · exact ⟨by simp [hs], by simp [hs], by simp [hs], by simp [hs]⟩
              · refine ⟨by simp [hs], by simp [hs], by simp [hs], ?_⟩
                simp only [hs]
                simp
                intro hd
                exact validated_of_ne_null _ hd
          | some coerce =>
              by_cases hs : (cfg.validate (cfg.beforeValidation (coerce st₀.body))).success
                  = false
              · exact ⟨by simp [hs], by simp [hs], by simp [hs], by simp [hs]⟩
              · refine ⟨by simp [hs], by simp [hs], by simp [hs], ?_⟩
                simp only [hs]
                simp
                intro hd
                exact validated_of_ne_null _ hd
  | some rlConfig =>
      by_cases hallow : (checkRateLimit now rlConfig store₀).1.allowed = false
      · exact ⟨by simp [hallow], by simp [hallow], by simp [hallow], by simp [hallow]⟩
      · cases hauth : cfg.authorize with
        | false =>
            exact ⟨by simp [hallow], by simp [hallow], by simp [hallow], by simp [hallow]⟩
        | true =>
            cases hc : cfg.coercionOpts with
            | none =>
                by_cases hs : (cfg.validate (cfg.beforeValidation st₀.body)).success = false
                · exact ⟨by simp [hallow, hs], by simp [hallow, hs], by simp [hallow, hs],
                    by simp [hallow, hs]⟩
                · refine ⟨by simp [hallow, hs], by simp [hallow, hs],
                    by simp [hallow, hs], ?_⟩
                  simp only [hallow, hs]
                  simp [hallow]
                  intro hd
                  exact validated_of_ne_null _ hd
            | some coerce =>
                by_cases hs : (cfg.validate (cfg.beforeValidation (coerce st₀.body))).success
                    = false
                · exact ⟨by simp [hallow, hs], by simp [hallow, hs], by simp [hallow, hs],
                    by simp [hallow, hs]⟩
                · refine ⟨by simp [hallow, hs], by simp [hallow, hs],
                    by simp [hallow, hs], ?_⟩
                  simp only [hallow, hs]
                  simp [hallow]
                  intro hd
                  exact validated_of_ne_null _ hd


/-- A validator that succeeds with the string `"x"`. -/
def okDataConfig : FRConfig :=
  { rateLimit := none
    authorize := true
    coercionOpts := none
    beforeValidation := fun b => b
    validate := fun _ => ⟨true, jstr "x", none⟩ }

/-- Witness for `validated_access_semantics`: a fresh instance raises the
programming error; after a successful run with non-null data, `validated()`
returns it. -/
theorem validated_access_semantics_witness :
    FormRequest.validated ⟨[], JVal.jnull, JVal.jobj []⟩
      = Except.error validatedErrorMessage
    ∧ FormRequest.validated (validateState okDataConfig 0 [] ⟨[], JVal.jnull, JVal.jobj []⟩)
      = Except.ok (jstr "x") := by
  have h := validated_access_semantics okDataConfig 0 [] ⟨[], JVal.jnull, JVal.jobj []⟩
  exact ⟨h.1 rfl, h.2.2.2.2 (jstr "x") rfl (fun hh => JVal.noConfusion hh)⟩

/-! Invocation wrappers (`src/middleware/withRequest.ts`). -/

/-- The error classes the wrapper's catch block can receive.  `otherError`
stands for any value that is none of the library's error classes. -/
inductive ThrownError where
  | validationError (errors : ValidationErrors)
  | authorizationError (message : String)
  | rateLimitError (result : RateLimitResult)
  | otherError (tag : Nat)

/-- The options object `createAppRouterWrapper` accepts: handlers for
Validation and Authorization failures plus a catch-all.  The source offers no
RateLimit-specific field. -/
structure AppRouterWrapperOptions (Response : Type) where
  onValidationError : Option (ValidationErrors → Response)
  onAuthorizationError : Option (String → Response)
  onError : Option (ThrownError → Response)

/-- The catch block of the callable produced by `createAppRouterWrapper`:
`if (error instanceof ValidationError && options.onValidationError) …`,
then the same for `AuthorizationError`, then `if (options.onError) …`,
else rethrow. -/
def appRouterWrapperCatch {Response : Type} (options : AppRouterWrapperOptions Response)
    (err : ThrownError) : Except ThrownError Response :=
  match err, options.onValidationError with
  | ThrownError.validationError e, some handler => Except.ok (handler e)
  | _, _ =>
    match err, options.onAuthorizationError with
    | ThrownError.authorizationError m, some handler => Except.ok (handler m)
    | _, _ =>
      match options.onError with
      | some handler => Except.ok (handler err)
      | none => Except.error err

/-- The callable produced by `createAppRouterWrapper(options)(RequestClass,
handler)`, as a function of the try block's outcome (construction, validation
and the downstream handler): successes pass through, thrown errors go through
the catch block. -/
def createAppRouterWrapper {Response : Type} (options : AppRouterWrapperOptions Response)
    (tryBlock : Except ThrownError Response) : Except ThrownError Response :=
  match tryBlock with
  | Except.ok response => Except.ok response
  | Except.error err => appRouterWrapperCatch options err

/-- C7 counterexample: the options type has no RateLimit-specific mapping, so
even with every per-kind handler the API accepts configured (Validation and
Authorization) and no catch-all, the produced callable still raises on a
RateLimit failure. -/
theorem rateLimit_unmappable_counterexample :
    createAppRouterWrapper
        (⟨some (fun _ => "422"), some (fun _ => "403"), none⟩ :
          AppRouterWrapperOptions String)
        (Except.error (ThrownError.rateLimitError ⟨false, 0, 5, 100, 3⟩))
      = Except.error (ThrownError.rateLimitError ⟨false, 0, 5, 100, 3⟩) := rfl

/-- C7 (amended): the wrapper accepts handlers for Validation and
Authorization failures plus a catch-all (no dedicated RateLimit mapping).  A
failure of a kind whose handler is configured is converted by that handler;
a RateLimit failure is converted only by the catch-all; with no applicable
handler the failure propagates unchanged, and successes pass through. -/
theorem appRouterWrapper_error_mapping {Response : Type}
    (options : AppRouterWrapperOptions Response) :
    (∀ r, createAppRouterWrapper options (Except.ok r) = Except.ok r)
    ∧ (∀ e handler, options.onValidationError = some handler →
        createAppRouterWrapper options (Except.error (ThrownError.validationError e))
          = Except.ok (handler e))
    ∧ (∀ m handler, options.onAuthorizationError = some handler →
        createAppRouterWrapper options (Except.error (ThrownError.authorizationError m))
          = Except.ok (handler m))
    ∧ (∀ rl handler, options.onError = some handler →
        createAppRouterWrapper options (Except.error (ThrownError.rateLimitError rl))
          = Except.ok (handler (ThrownError.rateLimitError rl)))
    ∧ (∀ rl, options.onError = none →
        createAppRouterWrapper options (Except.error (ThrownError.rateLimitError rl))
          = Except.error (ThrownError.rateLimitError rl))
    ∧ (∀ e, options.onValidationError = none → options.onError = none →
        createAppRouterWrapper options (Except.error (ThrownError.validationError e))
          = Except.error (ThrownError.validationError e))
    ∧ (∀ m, options.onAuthorizationError = none → options.onError = none →
        createAppRouterWrapper options (Except.error (ThrownError.authorizationError m))
          = Except.error (ThrownError.authorizationError m))
    ∧ (∀ tag, options.onError = none →
        createAppRouterWrapper options (Except.error (ThrownError.otherError tag))
          = Except.error (ThrownError.otherError tag)) := by
  obtain ⟨ov, oa, oe⟩ := options
  refine ⟨fun r => rfl, ?_, ?_, ?_, ?_, ?_, ?_, ?_⟩
  · intro e handler h
    subst h
    rfl
  · intro m handler h
    subst h
    cases ov <;> rfl
  · intro rl handler h
    subst h
    cases ov <;> cases oa <;> rfl
  · intro rl h
    subst h
    cases ov <;> cases oa <;> rfl
  · intro e h1 h2
    subst h1
    subst h2
    cases oa <;> rfl
  · intro m h1 h2
    subst h1
    subst h2
    cases ov <;> rfl
  · intro tag h
    subst h
    cases ov <;> cases oa <;> rfl

/-- Witness for `appRouterWrapper_error_mapping` at a concrete options
object: mapped kinds are converted, a RateLimit failure propagates when no
catch-all is configured. -/
theorem appRouterWrapper_error_mapping_witness :
    createAppRouterWrapper
        (⟨some (fun _ => "422"), some (fun _ => "403"), none⟩ :
          AppRouterWrapperOptions String)
        (Except.error (ThrownError.validationError [("name", ["too short"])]))
      = Except.ok "422"
    ∧ createAppRouterWrapper
        (⟨some (fun _ => "422"), some (fun _ => "403"), none⟩ :
          AppRouterWrapperOptions String)
        (Except.error (ThrownError.authorizationError "Unauthorized"))
      = Except.ok "403"
    ∧ createAppRouterWrapper
        (⟨some (fun _ => "422"), some (fun _ => "403"), none⟩ :
          AppRouterWrapperOptions String)
        (Except.error (ThrownError.rateLimitError ⟨false, 0, 5, 100, 3⟩))
      = Except.error (ThrownError.rateLimitError ⟨false, 0, 5, 100, 3⟩) := by
  have h := appRouterWrapper_error_mapping
    (⟨some (fun _ => "422"), some (fun _ => "403"), none⟩ : AppRouterWrapperOptions String)
  exact ⟨h.2.1 [("name", ["too short"])] _ rfl, h.2.2.1 "Unauthorized" _ rfl,
    h.2.2.2.2.1 ⟨false, 0, 5, 100, 3⟩ rfl⟩

/-! Validator adapters (`src/adapters/validators/ZodAdapter.ts`) and the
semantics of the replacement regex `new RegExp("\\b" + field + "\\b", "gi")`
they build.  The scan below implements that regex fragment for the patterns
the adapters produce (word characters and `.` separators; the path is spliced
in unescaped, so a `.` in the pattern matches any character). -/

/-- JavaScript `\w`: ASCII letters, digits and underscore. -/
def isWordChar (c : Char) : Bool :=
  c.isAlpha || c.isDigit || c = '_'

/-- One pattern character against one text character under the `i` flag, with
an unescaped `.` matching any character except a line terminator. -/
def patCharMatchesCI (p c : Char) : Bool :=
  if p = '.' then
    !(c = '\n' || c = '\r' || c = Char.ofNat 0x2028 || c = Char.ofNat 0x2029)
  else p.toLower = c.toLower

/-- Literal, case-sensitive character match (the claim's reading of
"occurrence of the raw field path"). -/
def charMatchesLiteral (p c : Char) : Bool :=
  p = c

/-- Does the pattern match a prefix of the text, character-matcher `m`? -/
def matchesAtWith (m : Char → Char → Bool) : List Char → List Char → Bool
  | [], _ => true
  | _ :: _, [] => false
  | p :: ps, c :: cs => m p c && matchesAtWith m ps cs

/-- JavaScript `\b`: exactly one of the neighbouring characters is a word
character (text edges count as non-word). -/
def isBoundary (prev next : Option Char) : Bool :=
  let pw := match prev with | some c => isWordChar c | none => false
  let nw := match next with | some c => isWordChar c | none => false
  pw != nw

/-- Global left-to-right scan of `text.replace(/\bPAT\b/g…, attr)`: at each
position not inside a previous match, if a `\b`-delimited match of the
pattern starts here, emit the replacement and skip the matched characters,
else copy the character.  `prev` is the previously consumed character (for the
boundary test) and `skip` counts characters still inside a match. -/
def jsReplaceScanWith (m : Char → Char → Bool) (pat attr : List Char) :
    Option Char → Nat → List Char → List Char
  | _, _, [] => []
  | _prev, Nat.succ skip, c :: cs => jsReplaceScanWith m pat attr (some c) skip cs
  | prev, 0, c :: cs =>
      if isBoundary prev (some c) && matchesAtWith m pat (c :: cs)
          && isBoundary ((c :: cs).get? (pat.length - 1)) ((c :: cs).get? pat.length) then
        attr ++ jsReplaceScanWith m pat attr (some c) (pat.length - 1) cs
      else c :: jsReplaceScanWith m pat attr (some c) 0 cs

/-- `message.replace(new RegExp("\\b" + field + "\\b", "gi"), attr)`: the
replacement the adapters perform. -/
def jsRegexWordReplaceGI (message field attr : String) : String :=
  String.mk (jsReplaceScanWith patCharMatchesCI field.toList attr.toList none 0 message.toList)

/-- Claim-side replacement: every whole-word occurrence of the raw field
path, matched literally (case-sensitively). -/
def specWholeWordReplaceLiteral (message field attr : String) : String :=
  String.mk (jsReplaceScanWith charMatchesLiteral field.toList attr.toList none 0 message.toList)

/-- A Zod issue: `path` segments (strings or numeric indices), the issue's
`message` and its `code`. -/
structure ZodIssue where
  path : List (String ⊕ Int)
  message : String
  code : String

/-- One path segment rendered the way `Array.prototype.join` renders it. -/
def zodPathSegToString : String ⊕ Int → String
  | Sum.inl s => s
  | Sum.inr n => toString n

/-- `issue.path.join(".")`. -/
def zodJoinPath (path : List (String ⊕ Int)) : String :=
  String.intercalate "." (path.map zodPathSegToString)

/-- `const fieldName = path || "_root"` (an empty join is falsy). -/
def zodFieldName (issue : ZodIssue) : String :=
  let path := zodJoinPath issue.path
  if path = "" then "_root" else path

/-- `ValidationConfig` (`{messages, attributes}`). -/
structure ValidationConfig where
  messages : List (String × String)
  attributes : List (String × String)

/-- Truthiness-guarded lookup `if (map[k]) …`: a present but empty string is
falsy and behaves like an absent entry. -/
def truthyLookup (map : List (String × String)) (k : String) : Option String :=
  match map.lookup k with
  | some s => if s = "" then none else some s
  | none => none

/-- Message resolution of `formatZodErrors` for one issue: custom message
keyed `"<path>.<code>"`, else custom message keyed `"<path>"`, else the
issue's default message with the field replaced by the attribute name. -/
def zodResolveMessage (config : ValidationConfig) (issue : ZodIssue) : String :=
  let fieldName := zodFieldName issue
  let attributeName := (config.attributes.lookup fieldName).getD fieldName
  let messageKey := fieldName ++ "." ++ issue.code
  match truthyLookup config.messages messageKey with
  | some msg => msg
  | none =>
      match truthyLookup config.messages fieldName with
      | some msg => msg
      | none => jsRegexWordReplaceGI issue.message fieldName attributeName

/-- Claim-side resolution as originally worded: identical except that step
(3) replaces literal whole-word occurrences of the raw path. -/
def zodResolveMessageLiteral (config : ValidationConfig) (issue : ZodIssue) : String :=
  let fieldName := zodFieldName issue
  let attributeName := (config.attributes.lookup fieldName).getD fieldName
  let messageKey := fieldName ++ "." ++ issue.code
  match truthyLookup config.messages messageKey with
  | some msg => msg
  | none =>
      match truthyLookup config.messages fieldName with
      | some msg => msg
      | none => specWholeWordReplaceLiteral issue.message fieldName attributeName

/-- `if (!errors[path]) errors[path] = []; errors[path].push(message)`. -/
def multiMapPush : ValidationErrors → String → String → ValidationErrors
  | [], k, msg => [(k, [msg])]
  | (k', msgs) :: rest, k, msg =>
      if k' = k then (k', msgs ++ [msg]) :: rest
      else (k', msgs) :: multiMapPush rest k msg

/-- `ZodAdapter.formatZodErrors`: fold the issue list, accumulating each
issue's resolved message under its derived field name. -/
def ZodAdapter.formatZodErrors (issues : List ZodIssue) (config : ValidationConfig) :
    ValidationErrors :=
  issues.foldl
    (fun errors issue =>
      multiMapPush errors (zodFieldName issue) (zodResolveMessage config issue))
    []

/-- Claim-side formatter as originally worded, with literal whole-word
replacement, grouping the issues of each path in report order. -/
def specFormatZodErrorsLiteral (issues : List ZodIssue) (config : ValidationConfig) :
    ValidationErrors :=
  let keys := (issues.map zodFieldName).eraseDups
  keys.map (fun k =>
    (k, (issues.filter (fun i => zodFieldName i = k)).map (zodResolveMessageLiteral config)))

/-- `ValidationError.getAllMessages()`: `Object.values(this.errors).flat()`. -/
def ValidationError.getAllMessages (errors : ValidationErrors) : List String :=
  (errors.map Prod.snd).flatten

-- Sanity examples for the replacement scan on concrete inputs.
example :
    jsRegexWordReplaceGI "Email is wrong" "email" "address" = "address is wrong" := by
  decide

example :
    specWholeWordReplaceLiteral "Email is wrong" "email" "address" = "Email is wrong" := by
  decide

example :
    jsRegexWordReplaceGI "the email of emails" "email" "address"
      = "the address of emails" := by
  decide

theorem lookup_multiMapPush (errors : ValidationErrors) (key k : String) (msg : String) :
    (multiMapPush errors key msg).lookup k =
      if k = key then some (((errors.lookup key).getD []) ++ [msg])
      else errors.lookup k := by
  induction errors with
  | nil => by_cases h : k = key <;> simp [multiMapPush, lookup_cons, List.lookup_nil, h]
  | cons p rest ih =>
      obtain ⟨k', msgs⟩ := p
      by_cases h1 : k' = key
      · subst h1
        simp only [multiMapPush, if_pos rfl]
        by_cases h2 : k = k' <;> simp [h2, lookup_cons]
      · simp only [multiMapPush, if_neg h1]
        by_cases h2 : k = k'
        · subst h2
          simp [lookup_cons, h1]
        · simp [lookup_cons, h2, ih, Ne.symm h1]

theorem lookup_formatZodErrors_aux (config : ValidationConfig) (issues : List ZodIssue)
    (k : String) :
    ∀ acc : ValidationErrors,
      (issues.foldl (fun errors issue =>
          multiMapPush errors (zodFieldName issue) (zodResolveMessage config issue))
        acc).lookup k =
        match acc.lookup k with
        | some msgs =>
            some (msgs ++
              (issues.filter (fun i => zodFieldName i = k)).map (zodResolveMessage config))
        | none =>
            if (issues.map zodFieldName).contains k then
              some ((issues.filter (fun i => zodFieldName i = k)).map
                (zodResolveMessage config))
            else none := by
  induction issues with
  | nil =>
      intro acc
      cases h : acc.lookup k <;> simp [h]
  | cons i rest ih =>
      intro acc
      simp only [List.foldl_cons]
      rw [ih (multiMapPush acc (zodFieldName i) (zodResolveMessage config i)),
        lookup_multiMapPush]
      by_cases hf : zodFieldName i = k
      · subst hf
        rw [if_pos rfl]
        cases h : acc.lookup (zodFieldName i) with
        | some msgs => simp [h, List.filter_cons, List.append_assoc]
        | none => simp [h, List.filter_cons]
      · rw [if_neg (fun hh => hf hh.symm)]
        have hbeq : (k == zodFieldName i) = false :=
          beq_eq_false_iff_ne.mpr (fun hh => hf hh.symm)
        cases h : acc.lookup k with
        | some msgs => simp [h, List.filter_cons, hf]
        | none =>
            have hk : ¬ k = zodFieldName i := fun hh => hf hh.symm
            simp [h, List.filter_cons, hf, hk]

/-- C5 (amended): `formatZodErrors` keys each issue by its `.`-joined path
(`_root` when the path is empty) and maps that key to the issues' resolved
messages in report order, where resolution tries the non-empty custom message
keyed `"<path>.<code>"`, then the one keyed `"<path>"`, then the default
message with the field path replaced by the attribute name case-insensitively
(the path is spliced into the regex unescaped, so `.` separators match any
character). -/
theorem formatZodErrors_paths_and_messages (issues : List ZodIssue)
    (config : ValidationConfig) (k : String) :
    (ZodAdapter.formatZodErrors issues config).lookup k =
      if (issues.map zodFieldName).contains k then
        some ((issues.filter (fun i => zodFieldName i = k)).map (zodResolveMessage config))
      else none := by
  have h := lookup_formatZodErrors_aux config issues k []
  simpa [ZodAdapter.formatZodErrors] using h

/-- C5 counterexample: with attribute `email → address`, the default message
`"Email is wrong"` for path `email` is rewritten to `"address is wrong"` by
the code's case-insensitive regex, while replacing literal whole-word
occurrences of the raw path (the claim's wording) leaves it unchanged. -/
theorem zod_attribute_replacement_case_counterexample :
    ZodAdapter.formatZodErrors [⟨[Sum.inl "email"], "Email is wrong", "custom"⟩]
        ⟨[], [("email", "address")]⟩
      = [("email", ["address is wrong"])]
    ∧ specFormatZodErrorsLiteral [⟨[Sum.inl "email"], "Email is wrong", "custom"⟩]
        ⟨[], [("email", "address")]⟩
      = [("email", ["Email is wrong"])]
    ∧ ("address is wrong" : String) ≠ "Email is wrong" :=
  ⟨by decide, by decide, by decide⟩

theorem multiMapPush_values_nonempty (errors : ValidationErrors) (k msg : String)
    (h : ∀ p ∈ errors, p.2 ≠ []) :
    ∀ p ∈ multiMapPush errors k msg, p.2 ≠ [] := by
  induction errors with
  | nil =>
      intro p hp
      simp [multiMapPush] at hp
      subst hp
      simp
  | cons q rest ih =>
      obtain ⟨k', msgs⟩ := q
      intro p hp
      by_cases h1 : k' = k
      · subst h1
        simp only [multiMapPush, if_pos rfl] at hp
        cases hp with
        | head => simp
        | tail _ hmem => exact h p (List.mem_cons_of_mem _ hmem)
      · simp only [multiMapPush, if_neg h1] at hp
        cases hp with
        | head => exact h _ (List.mem_cons_self _ _)
        | tail _ hmem => exact ih (fun q hq => h q (List.mem_cons_of_mem _ hq)) p hmem

theorem formatZodErrors_fold_nonempty (config : ValidationConfig) (issues : List ZodIssue) :
    ∀ acc : ValidationErrors, (∀ p ∈ acc, p.2 ≠ []) →
      ∀ p ∈ issues.foldl (fun errors issue =>
          multiMapPush errors (zodFieldName issue) (zodResolveMessage config issue)) acc,
        p.2 ≠ [] := by
  induction issues with
  | nil => intro acc hacc; exact hacc
  | cons i rest ih =>
      intro acc hacc
      simp only [List.foldl_cons]
      exact ih _ (multiMapPush_values_nonempty acc _ _ hacc)

theorem getAllMessages_concat (errors : ValidationErrors) :
    ValidationError.getAllMessages errors = errors.foldr (fun p acc => p.2 ++ acc) [] := by
  induction errors with
  | nil => rfl
  | cons p rest ih =>
      simp only [ValidationError.getAllMessages, List.map_cons, List.flatten_cons,
        List.foldr_cons]
      rw [← ih]
      rfl

/-- C6: every key of a `FieldErrors` object produced by `formatZodErrors`
carries a non-empty message list, and `getAllMessages` returns exactly the
concatenation of the per-field message lists in field-iteration order. -/
theorem fieldErrors_nonempty_and_getAllMessages (issues : List ZodIssue)
    (config : ValidationConfig) :
    (∀ p ∈ ZodAdapter.formatZodErrors issues config, p.2 ≠ [])
    ∧ ValidationError.getAllMessages (ZodAdapter.formatZodErrors issues config)
      = (ZodAdapter.formatZodErrors issues config).foldr (fun p acc => p.2 ++ acc) [] :=
  ⟨formatZodErrors_fold_nonempty config issues [] (by intro p hp; simp at hp),
    getAllMessages_concat _⟩

/-- Witness for `fieldErrors_nonempty_and_getAllMessages` on a concrete
failing validation with two issues on one field and one on another. -/
theorem fieldErrors_nonempty_and_getAllMessages_witness :
    (("email" : String), ["bad email", "too long"]).2 ≠ []
    ∧ ValidationError.getAllMessages
        (ZodAdapter.formatZodErrors
          [⟨[Sum.inl "email"], "bad email", "invalid_string"⟩,
           ⟨[Sum.inl "email"], "too long", "too_big"⟩,
           ⟨[Sum.inl "name"], "too short", "too_small"⟩] ⟨[], []⟩)
      = ["bad email", "too long", "too short"] := by
  have h := fieldErrors_nonempty_and_getAllMessages
    [⟨[Sum.inl "email"], "bad email", "invalid_string"⟩,
     ⟨[Sum.inl "email"], "too long", "too_big"⟩,
     ⟨[Sum.inl "name"], "too short", "too_small"⟩] ⟨[], []⟩
  refine ⟨h.1 (("email" : String), ["bad email", "too long"]) (by decide), ?_⟩
  rw [h.2]
  decide

/-! Error formatting utilities (`src/utils/errorFormatting.ts`). -/

/-- A value inside the `nested` error structure: strings (the individual
messages), arrays and plain objects.  Arrays are JavaScript objects too, so
they carry string-keyed entries; element iteration (`every`/`forEach`) is
modelled as iteration over the entries in order, which is exact for the
arrays this module builds (dense, created in ascending index order, without
extra properties). -/
inductive JE where
  | s (str : String)
  | arr (entries : List (String × JE))
  | obj (entries : List (String × JE))

/-- Is this value a JavaScript string? (`typeof item === "string"`). -/
def JE.isStr : JE → Bool
  | .s _ => true
  | _ => false

/-- The string payload (only ever read from values that `isStr`). -/
def JE.strVal : JE → String
  | .s v => v
  | _ => ""

/-- The entries of a value used as an object (a string has none). -/
def JE.entriesOf : JE → List (String × JE)
  | .s _ => []
  | .arr es => es
  | .obj es => es

/-- Replace a container's entries (writing properties of a primitive string
is a strict-mode `TypeError` in JavaScript; it is modelled as a no-op and is
unreachable in every theorem below). -/
def JE.withEntries : JE → List (String × JE) → JE
  | .s str, _ => .s str
  | .arr _, es => .arr es
  | .obj _, es => .obj es

/-- `path.split(".")` at character level (split on `"."` as a plain string,
exactly like `String.prototype.split` with a one-character separator). -/
def splitCharsOnDot : List Char → List (List Char)
  | [] => [[]]
  | c :: cs =>
      let r := splitCharsOnDot cs
      if c = '.' then [] :: r
      else
        match r with
        | h :: t => (c :: h) :: t
        | [] => [[c]]

/-- `path.split(".")`. -/
def splitOnDot (s : String) : List String :=
  (splitCharsOnDot s.data).map String.mk

/-- A path segment produced by `parsePath`: a string key or an array index. -/
inductive PathSeg where
  | str (s : String)
  | num (n : Nat)
deriving DecidableEq

/-- The test `/^\d+$/.test(part)`. -/
def isDigits (s : String) : Bool :=
  s.data.all Char.isDigit && s.data ≠ []

/-- `parseInt(ds, 10)` on a digit string. -/
def digitsToNat (ds : List Char) : Nat :=
  ds.foldl (fun n c => n * 10 + (c.toNat - '0'.toNat)) 0

/-- Is `cs` exactly `"[" ++ digits ++ "]"` with at least one digit consumed
already (`cs` is the text after the `[`)? -/
def bracketTail (cs : List Char) : Bool :=
  match cs.reverse with
  | ']' :: ds => ds ≠ [] && ds.all Char.isDigit
  | _ => false

/-- Scanner for `part.match(/^(.+?)\[(\d+)\]$/)`: the lazy prefix stops at
the first `[` whose remainder is exactly `[digits]`. -/
def bracketSplitAux (acc : List Char) : List Char → Option (String × Nat)
  | [] => none
  | c :: cs =>
      if c = '[' && acc ≠ [] && bracketTail cs then
        some (String.mk acc.reverse, digitsToNat cs.dropLast)
      else bracketSplitAux (c :: acc) cs

/-- `part.match(/^(.+?)\[(\d+)\]$/)`, returning the prefix and the index. -/
def bracketSplit (part : String) : Option (String × Nat) :=
  bracketSplitAux [] part.data

/-- One split part's contribution to the parsed path: bracket notation gives
a string plus an index, an all-digit part gives an index, anything else a
string key. -/
def parsePart (part : String) : List PathSeg :=
  match bracketSplit part with
  | some (pre, n) => [PathSeg.str pre, PathSeg.num n]
  | none => if isDigits part then [PathSeg.num (digitsToNat part.data)] else [PathSeg.str part]

/-- `parsePath` in `errorFormatting.ts`. -/
def parsePath (path : String) : List PathSeg :=
  ((splitOnDot path).map parsePart).flatten

/-- `String(key)` on a segment. -/
def PathSeg.keyStr : PathSeg → String
  | .str s => s
  | .num n => toString n

/-- The container created for an absent intermediate key: an array when the
next segment is a number, an object otherwise. -/
def newContainer (next : PathSeg) : JE :=
  match next with
  | PathSeg.num _ => JE.arr []
  | PathSeg.str _ => JE.obj []

/-- `setNestedValue(obj, path, value)`: walk the path, creating containers
for absent intermediate keys (`typeof nextKey === "number" ? [] : {}`), and
assign the value at the last key. -/
def setNestedValue (entries : List (String × JE)) : List PathSeg → JE → List (String × JE)
  | [], _ => entries
  | [last], v => assocSet entries last.keyStr v
  | seg :: next :: rest, v =>
      let keyStr := seg.keyStr
      let child :=
        match entries.lookup keyStr with
        | some c => c
        | none => newContainer next
      let child2 := child.withEntries (setNestedValue child.entriesOf (next :: rest) v)
      assocSet entries keyStr child2

/-- The JavaScript array holding a message list: element `i` is stored under
the key `String(i)`. -/
def msgsToJE (msgs : List String) : JE :=
  JE.arr (msgs.enum.map (fun p => (toString p.1, JE.s p.2)))

/-- `ErrorFormattingOptions`; `none` is an absent (`undefined`) field.  A
`maxErrorsPerField` of `0` is falsy and behaves like an absent one. -/
structure ErrorFormattingOptions where
  maxErrorsPerField : Option Nat := none
  pathSeparator : Option String := none
  includeArrayIndices : Option Bool := none

/-- The data part of `StructuredErrors` (its `has`/`get`/`first` closures
are plain lookups into `flat`). -/
structure StructuredErrors where
  flat : ValidationErrors
  nested : List (String × JE)
  all : List String
  count : Nat

/-- `formatErrors(errors, options)`: one pass over the entries, building the
flat copy, the `all` list and the nested structure via `setNestedValue`. -/
def formatErrors (errors : ValidationErrors) (options : ErrorFormattingOptions) :
    StructuredErrors :=
  let r := errors.foldl
    (fun (acc : ValidationErrors × List (String × JE) × List String) p =>
      let limitedMessages :=
        match options.maxErrorsPerField with
        | some n => if n = 0 then p.2 else p.2.take n
        | none => p.2
      (assocSet acc.1 p.1 limitedMessages,
        setNestedValue acc.2.1 (parsePath p.1) (msgsToJE limitedMessages),
        acc.2.2 ++ limitedMessages))
    ([], [], [])
  ⟨r.1, r.2.1, r.2.2, r.2.2.length⟩

/-- The prefix for a child entry: `prefix ? prefix + sep + key : key` (the
array branch builds the same string from the element index). -/
def childKey (sep px k : String) : String :=
  if px = "" then k else px ++ sep ++ k

/-- The recursive `flatten` of `flattenErrors`: an array whose elements are
all strings lands in the result under the current prefix; other arrays and
objects recurse into their entries; plain strings contribute nothing.  The
recursion is indexed by explicit fuel that must exceed the nesting depth
(the source recursion always terminates because the structure is finite). -/
def flattenFuel (sep : String) (includeIdx : Bool) :
    Nat → JE → String → ValidationErrors → ValidationErrors
  | 0, _, _, result => result
  | Nat.succ fuel, je, px, result =>
      match je with
      | JE.s _ => result
      | JE.arr entries =>
          if entries.all (fun p => p.2.isStr) then
            assocSet result px (entries.map (fun p => p.2.strVal))
          else
            entries.foldl
              (fun r p =>
                flattenFuel sep includeIdx fuel p.2
                  (if includeIdx then childKey sep px p.1 else px) r)
              result
      | JE.obj entries =>
          entries.foldl
            (fun r p => flattenFuel sep includeIdx fuel p.2 (childKey sep px p.1) r)
            result

/-- `flattenErrors(nested, options)` with explicit recursion fuel:
`pathSeparator` defaults to `"."` and `includeArrayIndices` to `true`. -/
def flattenErrors (fuel : Nat) (nested : List (String × JE))
    (options : ErrorFormattingOptions) : ValidationErrors :=
  flattenFuel (options.pathSeparator.getD ".") (options.includeArrayIndices.getD true)
    fuel (JE.obj nested) "" []

-- Sanity examples for the formatting round trip on concrete inputs.
example :
    flattenErrors 5 (formatErrors [("user.email", ["bad"]), ("name", ["short"])] {}).nested {}
      = [("user.email", ["bad"]), ("name", ["short"])] := by decide

example :
    flattenErrors 5 (formatErrors [("a.b", ["y"]), ("a", ["x"])] {}).nested {}
      = [("a", ["x"])] := by decide

example : parsePath "items.1.name" = [PathSeg.str "items", PathSeg.num 1, PathSeg.str "name"] := by
  decide

example : parsePath "items[2].name" = [PathSeg.str "items", PathSeg.num 2, PathSeg.str "name"] := by
  decide

/-- C9 counterexample: with input keys `"a.b"` then `"a"`, `setNestedValue`
for the later plain `"a"` overwrites the subtree built for `"a.b"`, so
flattening the nested structure loses the `"a.b"` entry (the structure has
depth 2, so fuel 5 fully evaluates the recursion). -/
theorem formatErrors_flatten_roundtrip_counterexample :
    flattenErrors 5 (formatErrors [("a.b", ["y"]), ("a", ["x"])] {}).nested {}
      = [("a", ["x"])]
    ∧ List.lookup "a.b"
        (flattenErrors 5 (formatErrors [("a.b", ["y"]), ("a", ["x"])] {}).nested {})
      = none
    ∧ List.lookup "a.b" ([("a.b", ["y"]), ("a", ["x"])] : ValidationErrors) = some ["y"] :=
  ⟨by decide, by decide, by decide⟩

/-- Dot-prefixed concatenation of parts, the shape `".p₁.p₂…"`. -/
def dotFlat (parts : List (List Char)) : List Char :=
  (parts.map (fun p => '.' :: p)).flatten

/-- Join parts with `"."` separators at character level. -/
def charJoinParts : List (List Char) → List Char
  | [] => []
  | p :: ps => p ++ dotFlat ps

theorem splitCharsOnDot_ne_nil (cs : List Char) : splitCharsOnDot cs ≠ [] := by
  induction cs with
  | nil => simp [splitCharsOnDot]
  | cons c cs ih =>
      by_cases h : c = '.'
      · simp [splitCharsOnDot, h]
      · simp only [splitCharsOnDot, if_neg h]
        cases hr : splitCharsOnDot cs with
        | nil => exact absurd hr ih
        | cons a t => simp

theorem charJoinParts_splitCharsOnDot (cs : List Char) :
    charJoinParts (splitCharsOnDot cs) = cs := by
  induction cs with
  | nil => rfl
  | cons c cs ih =>
      by_cases h : c = '.'
      · subst h
        simp only [splitCharsOnDot, if_pos rfl]
        cases hr : splitCharsOnDot cs with
        | nil => exact absurd hr (splitCharsOnDot_ne_nil cs)
        | cons a t =>
            rw [hr] at ih
            simp only [charJoinParts, dotFlat, List.map_cons, List.flatten_cons,
              List.nil_append] at ih ⊢
            simp [← ih]
      · simp only [splitCharsOnDot, if_neg h]
        cases hr : splitCharsOnDot cs with
        | nil => exact absurd hr (splitCharsOnDot_ne_nil cs)
        | cons a t =>
            rw [hr] at ih
            simp only [charJoinParts] at ih ⊢
            rw [List.cons_append, ih]

theorem splitCharsOnDot_dotFree (cs : List Char) :
    ∀ part ∈ splitCharsOnDot cs, '.' ∉ part := by
  induction cs with
  | nil =>
      intro part hp
      simp [splitCharsOnDot] at hp
      simp [hp]
  | cons c cs ih =>
      intro part hp
      by_cases h : c = '.'
      · simp only [splitCharsOnDot, if_pos h, List.mem_cons] at hp
        rcases hp with rfl | hp
        · simp
        · exact ih part hp
      · simp only [splitCharsOnDot, if_neg h] at hp
        cases hr : splitCharsOnDot cs with
        | nil => exact absurd hr (splitCharsOnDot_ne_nil cs)
        | cons a t =>
            rw [hr] at hp
            simp only [List.mem_cons] at hp
            rcases hp with rfl | hp
            · intro hmem
              rcases List.mem_cons.mp hmem with rfl | hmem
              · exact h rfl
              · exact ih a (by rw [hr]; exact List.mem_cons_self a t) hmem
            · exact ih part (by rw [hr]; exact List.mem_cons_of_mem a hp)

theorem dotFree_append_inj (p : List Char) :
    ∀ (q : List Char) (P Q : List (List Char)), '.' ∉ p → '.' ∉ q →
      p ++ dotFlat P = q ++ dotFlat Q → p = q ∧ dotFlat P = dotFlat Q := by
  induction p with
  | nil =>
      intro q P Q _ hq h
      cases q with
      | nil => exact ⟨rfl, h⟩
      | cons c q' =>
          cases P with
          | nil => simp [dotFlat] at h
          | cons a P' =>
              simp only [dotFlat, List.map_cons, List.flatten_cons, List.nil_append,
                List.cons_append] at h
              have hc : '.' = c := congrArg (fun l => l.headD ' ') h
              subst hc
              exact absurd (List.mem_cons_self _ q') hq
  | cons c p' ih =>
      intro q P Q hp hq h
      cases q with
      | nil =>
          cases Q with
          | nil => simp [dotFlat] at h
          | cons b Q' =>
              simp only [dotFlat, List.map_cons, List.flatten_cons, List.nil_append,
                List.cons_append] at h
              have hc : c = '.' := congrArg (fun l => l.headD ' ') h
              rw [hc] at hp
              exact absurd (List.mem_cons_self _ p') hp
      | cons d q' =>
          simp only [List.cons_append, List.cons.injEq] at h
          obtain ⟨rfl, h2⟩ := h
          obtain ⟨h3, h4⟩ := ih q' P Q (fun hm => hp (List.mem_cons_of_mem _ hm))
            (fun hm => hq (List.mem_cons_of_mem _ hm)) h2
          exact ⟨by rw [h3], h4⟩

theorem dotFlat_inj (P : List (List Char)) :
    ∀ Q : List (List Char), (∀ p ∈ P, '.' ∉ p) → (∀ q ∈ Q, '.' ∉ q) →
      dotFlat P = dotFlat Q → P = Q := by
  induction P with
  | nil =>
      intro Q _ _ h
      cases Q with
      | nil => rfl
      | cons b Q' => simp [dotFlat] at h
  | cons a P' ih =>
      intro Q hP hQ h
      cases Q with
      | nil => simp [dotFlat] at h
      | cons b Q' =>
          simp only [dotFlat, List.map_cons, List.flatten_cons, List.cons_append,
            List.cons.injEq] at h
          obtain ⟨hab, htails⟩ := dotFree_append_inj a b P' Q'
            (hP a (List.mem_cons_self a P')) (hQ b (List.mem_cons_self b Q')) h.2
          have := ih Q' (fun p hp => hP p (List.mem_cons_of_mem _ hp))
            (fun q hq => hQ q (List.mem_cons_of_mem _ hq)) htails
          rw [hab, this]

/-- A good object key segment: non-empty and containing no `.` (such a part
survives the `split(".")` / join round trip unchanged). -/
def goodSegB (s : String) : Bool :=
  !s.data.isEmpty && s.data.all (fun c => c != '.')

/-- All keys pairwise distinct (under `==`, which on `String` is equality). -/
def distinctKeysB : List String → Bool
  | [] => true
  | k :: ks => !ks.contains k && distinctKeysB ks

/-- `segsBelow p q`: the segment list `p` is an initial run of `q`. -/
def segsBelow : List String → List String → Bool
  | [], _ => true
  | _ :: _, [] => false
  | a :: p, b :: q => a == b && segsBelow p q

/-- No parsed path in the list is an initial run of another (in either
direction); in particular the paths are pairwise distinct. -/
def noBelowPairs : List (List String) → Bool
  | [] => true
  | p :: ps => ps.all (fun q => !segsBelow p q && !segsBelow q p) && noBelowPairs ps

/-- A dot-path key whose every part is a plain object key: non-empty,
dot-free (automatic from the split), not all digits, and not in bracket
notation, so that `parsePath` yields exactly the string segments. -/
def GoodKeyB (k : String) : Bool :=
  (splitOnDot k).all
    (fun part => goodSegB part && !isDigits part && (bracketSplit part).isNone)

/-- Does this value avoid being an empty object?  Intermediate containers
built by `setNestedValue` are assigned into immediately, so an empty object
node never occurs in a built nested structure. -/
def nonEmptyNode : JE → Bool
  | JE.obj [] => false
  | _ => true

/-- Depth-bounded well-formedness of a built nested-error value: a leaf is
an array of strings, an inner node is an object with distinct, good keys
and good, non-empty children one level shallower. -/
def goodVal : Nat → JE → Bool
  | 0, _ => false
  | Nat.succ d, je =>
      match je with
      | JE.s _ => false
      | JE.arr es => es.all (fun p => p.2.isStr)
      | JE.obj es =>
          distinctKeysB (es.map Prod.fst) &&
          es.all (fun p => goodSegB p.1 && nonEmptyNode p.2 && goodVal d p.2)

/-- The leaf positions of a nested-error value, in depth-first entry order:
each pair is the segment path from the value down to an array leaf together
with the leaf's message strings. -/
def leafPaths : Nat → JE → List (List String × List String)
  | 0, _ => []
  | Nat.succ d, je =>
      match je with
      | JE.s _ => []
      | JE.arr es => [([], es.map (fun p => p.2.strVal))]
      | JE.obj es =>
          (es.map (fun p => (leafPaths d p.2).map (fun q => (p.1 :: q.1, q.2)))).flatten

/-- Extend a flattened key by a segment path, one `childKey` at a time:
exactly the prefix produced by `flattenErrors`'s recursion along the path. -/
def rejoin (px : String) (p : List String) : String :=
  p.foldl (fun acc k => childKey "." acc k) px

/-- The flattened key of a leaf path seen from the root (where the prefix
starts empty): the path's segments joined with `"."`. -/
def rootKey : List String → String
  | [] => ""
  | a :: p => rejoin a p

theorem rejoin_nil (px : String) : rejoin px [] = px := rfl

theorem rejoin_cons (px a : String) (p : List String) :
    rejoin px (a :: p) = rejoin (childKey "." px a) p := rfl

theorem string_ne_empty_of_data (s : String) (h : s.data ≠ []) : s ≠ "" := by
  intro he
  subst he
  exact h rfl

theorem childKey_data (px k : String) (h : px ≠ "") :
    (childKey "." px k).data = px.data ++ '.' :: k.data := by
  simp only [childKey, if_neg h, String.data_append]
  simp

theorem childKey_ne_empty (px k : String) (h : px ≠ "") : childKey "." px k ≠ "" := by
  apply string_ne_empty_of_data
  rw [childKey_data px k h]
  simp

theorem goodSeg_data (s : String) (h : goodSegB s = true) :
    s.data ≠ [] ∧ '.' ∉ s.data := by
  simp only [goodSegB, Bool.and_eq_true, Bool.not_eq_true', List.all_eq_true] at h
  refine ⟨by simpa [List.isEmpty_iff] using h.1, fun hm => ?_⟩
  have := h.2 '.' hm
  simp at this

theorem map_data_inj (p : List String) :
    ∀ q : List String, p.map String.data = q.map String.data → p = q := by
  induction p with
  | nil => intro q h; cases q with | nil => rfl | cons b q' => simp at h
  | cons a p' ih =>
      intro q h
      cases q with
      | nil => simp at h
      | cons b q' =>
          simp only [List.map_cons, List.cons.injEq] at h
          rw [String.ext h.1, ih q' h.2]

theorem rejoin_data (p : List String) :
    ∀ px : String, px ≠ "" →
      (rejoin px p).data = px.data ++ dotFlat (p.map String.data) := by
  induction p with
  | nil => intro px _; simp [rejoin, dotFlat]
  | cons a p' ih =>
      intro px hpx
      rw [rejoin_cons, ih (childKey "." px a) (childKey_ne_empty px a hpx),
        childKey_data px a hpx]
      simp [dotFlat]

theorem dotFree_of_segsGood (p : List String) (h : ∀ s ∈ p, goodSegB s = true) :
    ∀ x ∈ p.map String.data, '.' ∉ x := by
  intro x hx
  obtain ⟨s, hs, rfl⟩ := List.mem_map.mp hx
  exact (goodSeg_data s (h s hs)).2

theorem rejoin_inj_at (px : String) (hpx : px ≠ "") (p q : List String)
    (hp : ∀ s ∈ p, goodSegB s = true) (hq : ∀ s ∈ q, goodSegB s = true)
    (h : rejoin px p = rejoin px q) : p = q := by
  have hd := congrArg String.data h
  rw [rejoin_data p px hpx, rejoin_data q px hpx] at hd
  have := dotFlat_inj (p.map String.data) (q.map String.data)
    (dotFree_of_segsGood p hp) (dotFree_of_segsGood q hq)
    (List.append_cancel_left hd)
  exact map_data_inj p q this

theorem rejoin_head_ne (px : String) (hpx : px ≠ "") (a b : String)
    (p q : List String) (ha : goodSegB a = true) (hb : goodSegB b = true)
    (hab : a ≠ b) : rejoin px (a :: p) ≠ rejoin px (b :: q) := by
  intro h
  have hd := congrArg String.data h
  rw [rejoin_data (a :: p) px hpx, rejoin_data (b :: q) px hpx] at hd
  have hd2 := List.append_cancel_left hd
  simp only [List.map_cons, dotFlat, List.flatten_cons, List.cons_append,
    List.cons.injEq] at hd2
  obtain ⟨hab2, _⟩ := dotFree_append_inj a.data b.data
    (p.map String.data) (q.map String.data)
    (goodSeg_data a ha).2 (goodSeg_data b hb).2 hd2.2
  exact hab (String.ext hab2)

theorem rejoin_nil_ne (px : String) (hpx : px ≠ "") (a : String) (p : List String) :
    rejoin px [] ≠ rejoin px (a :: p) := by
  intro h
  have hd := congrArg (fun s => s.data.length) h
  rw [rejoin_nil] at hd
  simp only [rejoin_data (a :: p) px hpx, List.map_cons, dotFlat, List.flatten_cons] at hd
  simp [List.length_append] at hd

theorem rootKey_inj (a b : String) (p q : List String)
    (ha : goodSegB a = true) (hb : goodSegB b = true)
    (hp : ∀ s ∈ p, goodSegB s = true) (hq : ∀ s ∈ q, goodSegB s = true)
    (h : rootKey (a :: p) = rootKey (b :: q)) : a = b ∧ p = q := by
  have hane : a ≠ "" := string_ne_empty_of_data a (goodSeg_data a ha).1
  have hbne : b ≠ "" := string_ne_empty_of_data b (goodSeg_data b hb).1
  have hd := congrArg String.data h
  simp only [rootKey] at hd
  rw [rejoin_data p a hane, rejoin_data q b hbne] at hd
  obtain ⟨hab, hflat⟩ := dotFree_append_inj a.data b.data
    (p.map String.data) (q.map String.data)
    (goodSeg_data a ha).2 (goodSeg_data b hb).2 hd
  refine ⟨String.ext hab, ?_⟩
  exact map_data_inj p q (dotFlat_inj _ _ (dotFree_of_segsGood p hp)
    (dotFree_of_segsGood q hq) hflat)

theorem goodVal_obj (d : Nat) (es : List (String × JE)) :
    goodVal (d + 1) (JE.obj es) = true ↔
      distinctKeysB (es.map Prod.fst) = true ∧
      ∀ p ∈ es, goodSegB p.1 = true ∧ nonEmptyNode p.2 = true ∧ goodVal d p.2 = true := by
  simp [goodVal, List.all_eq_true, Bool.and_eq_true, and_assoc]

theorem leafPaths_obj (d : Nat) (es : List (String × JE)) :
    leafPaths (d + 1) (JE.obj es)
      = (es.map (fun p => (leafPaths d p.2).map (fun q => (p.1 :: q.1, q.2)))).flatten := rfl

theorem mem_leafPaths_obj (d : Nat) (es : List (String × JE))
    (x : List String × List String) :
    x ∈ leafPaths (d + 1) (JE.obj es) ↔
      ∃ p ∈ es, ∃ q ∈ leafPaths d p.2, x = (p.1 :: q.1, q.2) := by
  rw [leafPaths_obj]
  simp only [List.mem_flatten, List.mem_map]
  constructor
  · rintro ⟨l, ⟨p, hp, rfl⟩, hx⟩
    obtain ⟨q, hq, rfl⟩ := List.mem_map.mp hx
    exact ⟨p, hp, q, hq, rfl⟩
  · rintro ⟨p, hp, q, hq, rfl⟩
    exact ⟨_, ⟨p, hp, rfl⟩, List.mem_map.mpr ⟨q, hq, rfl⟩⟩

theorem leafPaths_segsGood (d : Nat) :
    ∀ je, goodVal d je = true →
      ∀ q ∈ leafPaths d je, ∀ s ∈ q.1, goodSegB s = true := by
  induction d with
  | zero => intro je h; simp [goodVal] at h
  | succ d ih =>
      intro je h q hq s hs
      match je with
      | JE.s _ => simp [goodVal] at h
      | JE.arr es => simp only [leafPaths, List.mem_singleton] at hq; subst hq; simp at hs
      | JE.obj es =>
          obtain ⟨p, hp, q', hq', rfl⟩ := (mem_leafPaths_obj d es q).mp hq
          obtain ⟨hseg, _, hgood⟩ := ((goodVal_obj d es).mp h).2 p hp
          simp only [List.mem_cons] at hs
          rcases hs with rfl | hs
          · exact hseg
          · exact ih p.2 hgood q' hq' s hs

theorem leafPaths_ne_nil (d : Nat) :
    ∀ je, goodVal d je = true → nonEmptyNode je = true → leafPaths d je ≠ [] := by
  induction d with
  | zero => intro je h; simp [goodVal] at h
  | succ d ih =>
      intro je h hne
      match je with
      | JE.s _ => simp [goodVal] at h
      | JE.arr es => simp [leafPaths]
      | JE.obj es =>
          match es with
          | [] => simp [nonEmptyNode] at hne
          | p :: rest =>
              obtain ⟨_, hpne, hpgood⟩ := ((goodVal_obj d _).mp h).2 p
                (List.mem_cons_self p rest)
              have := ih p.2 hpgood hpne
              rw [leafPaths_obj]
              simp only [List.map_cons, List.flatten_cons, ne_eq, List.append_eq_nil,
                List.map_eq_nil_iff, not_and]
              intro hnil
              exact absurd hnil this

theorem distinctKeysB_cons (k : String) (ks : List String) :
    distinctKeysB (k :: ks) = true ↔ k ∉ ks ∧ distinctKeysB ks = true := by
  simp [distinctKeysB]

theorem leafKeys_nodup (d : Nat) :
    ∀ je px, goodVal d je = true → px ≠ "" →
      ((leafPaths d je).map (fun q => rejoin px q.1)).Nodup := by
  induction d with
  | zero => intro je px h _; simp [goodVal] at h
  | succ d ih =>
      intro je px h hpx
      match je with
      | JE.s _ => simp [goodVal] at h
      | JE.arr es => simp [leafPaths]
      | JE.obj es =>
          obtain ⟨hdist, hall⟩ := (goodVal_obj d es).mp h
          clear h
          revert hdist hall
          induction es with
          | nil => intro _ _; simp [leafPaths_obj]
          | cons p rest ihes =>
              intro hdist hall
              obtain ⟨hnotin, hdist'⟩ :=
                (distinctKeysB_cons p.1 (rest.map Prod.fst)).mp hdist
              rw [leafPaths_obj]
              simp only [List.map_cons, List.flatten_cons, List.map_append]
              rw [List.nodup_append]
              refine ⟨?_, ?_, ?_⟩
              · rw [List.map_map]
                exact ih p.2 (childKey "." px p.1)
                  (hall p (List.mem_cons_self p rest)).2.2 (childKey_ne_empty px p.1 hpx)
              · have := ihes hdist' (fun x hx => hall x (List.mem_cons_of_mem p hx))
                rw [leafPaths_obj] at this
                exact this
              · intro x hxA hxB
                rw [List.map_map] at hxA
                obtain ⟨q, hq, rfl⟩ := List.mem_map.mp hxA
                obtain ⟨z, hz, hxz⟩ := List.mem_map.mp hxB
                have hz' : z ∈ leafPaths (d + 1) (JE.obj rest) := by
                  rw [leafPaths_obj]; exact hz
                obtain ⟨p', hp', q', hq', rfl⟩ := (mem_leafPaths_obj d rest z).mp hz'
                have hne : p.1 ≠ p'.1 := by
                  intro he
                  exact hnotin (he ▸ List.mem_map.mpr ⟨p', hp', rfl⟩)
                exact rejoin_head_ne px hpx p.1 p'.1 q.1 q'.1
                  (hall p (List.mem_cons_self p rest)).1
                  (hall p' (List.mem_cons_of_mem p hp')).1 hne hxz.symm

theorem rootKeys_nodup (d : Nat) (es : List (String × JE))
    (h : goodVal (d + 1) (JE.obj es) = true) :
    ((leafPaths (d + 1) (JE.obj es)).map (fun q => rootKey q.1)).Nodup := by
  obtain ⟨hdist, hall⟩ := (goodVal_obj d es).mp h
  clear h
  revert hdist hall
  induction es with
  | nil => intro _ _; simp [leafPaths_obj]
  | cons p rest ihes =>
      intro hdist hall
      obtain ⟨hnotin, hdist'⟩ := (distinctKeysB_cons p.1 (rest.map Prod.fst)).mp hdist
      rw [leafPaths_obj]
      simp only [List.map_cons, List.flatten_cons, List.map_append]
      rw [List.nodup_append]
      have hp := hall p (List.mem_cons_self p rest)
      have hpne : p.1 ≠ "" := string_ne_empty_of_data p.1 (goodSeg_data p.1 hp.1).1
      refine ⟨?_, ?_, ?_⟩
      · rw [List.map_map]
        exact leafKeys_nodup d p.2 p.1 hp.2.2 hpne
      · have := ihes hdist' (fun x hx => hall x (List.mem_cons_of_mem p hx))
        rw [leafPaths_obj] at this
        exact this
      · intro x hxA hxB
        rw [List.map_map] at hxA
        obtain ⟨q, hq, rfl⟩ := List.mem_map.mp hxA
        obtain ⟨z, hz, hxz⟩ := List.mem_map.mp hxB
        have hz' : z ∈ leafPaths (d + 1) (JE.obj rest) := by
          rw [leafPaths_obj]; exact hz
        obtain ⟨p', hp', q', hq', rfl⟩ := (mem_leafPaths_obj d rest z).mp hz'
        have hne : p.1 ≠ p'.1 := by
          intro he
          exact hnotin (he ▸ List.mem_map.mpr ⟨p', hp', rfl⟩)
        have hp'good := hall p' (List.mem_cons_of_mem p hp')
        exact hne (rootKey_inj p.1 p'.1 q.1 q'.1 hp.1 hp'good.1
          (leafPaths_segsGood d p.2 hp.2.2 q hq)
          (leafPaths_segsGood d p'.2 hp'good.2.2 q' hq') hxz.symm).1

theorem assocSet_append_of_not_mem {α : Type} (l : List (String × α)) (k : String) (v : α)
    (h : k ∉ l.map Prod.fst) : assocSet l k v = l ++ [(k, v)] := by
  induction l with
  | nil => rfl
  | cons p rest ih =>
      obtain ⟨k', v'⟩ := p
      simp only [List.map_cons, List.mem_cons] at h
      push_neg at h
      simp only [assocSet, if_neg (show ¬ k' = k from fun he => h.1 he.symm)]
      rw [ih h.2]
      simp

theorem map_flatten_eq {α β γ : Type} (L : List α) (f : α → List β) (g : β → γ) :
    ((L.map f).flatten).map g = (L.map (fun a => (f a).map g)).flatten := by
  induction L with
  | nil => simp
  | cons a L ih => simp only [List.map_cons, List.flatten_cons, List.map_append, ih]

theorem foldl_emit {α : Type} (es : List α) (step : α → ValidationErrors → ValidationErrors)
    (Em : α → ValidationErrors) :
    ∀ r₀ : ValidationErrors,
    (∀ p ∈ es, ∀ r : ValidationErrors,
      (∀ k ∈ (Em p).map Prod.fst, k ∉ r.map Prod.fst) → step p r = r ++ Em p) →
    ((es.map (fun p => (Em p).map Prod.fst)).flatten).Nodup →
    (∀ k ∈ (es.map (fun p => (Em p).map Prod.fst)).flatten, k ∉ r₀.map Prod.fst) →
    es.foldl (fun r p => step p r) r₀ = r₀ ++ (es.map Em).flatten := by
  induction es with
  | nil => intro r₀ _ _ _; simp
  | cons p rest ih =>
      intro r₀ hstep hnodup hfresh
      simp only [List.map_cons, List.flatten_cons] at hnodup hfresh ⊢
      rw [List.nodup_append] at hnodup
      simp only [List.foldl_cons]
      rw [hstep p (List.mem_cons_self p rest) r₀
        (fun k hk => hfresh k (List.mem_append_left _ hk))]
      rw [ih (r₀ ++ Em p) (fun p' hp' r hr => hstep p' (List.mem_cons_of_mem p hp') r hr)
        hnodup.2.1 ?_]
      · rw [List.append_assoc]
      · intro k hk
        rw [List.map_append]
        intro hmem
        rcases List.mem_append.mp hmem with h1 | h1
        · exact hfresh k (List.mem_append_right _ hk) h1
        · exact hnodup.2.2 h1 hk

theorem flattenFuel_arr_leaf (f : Nat) (es : List (String × JE)) (px : String)
    (result : ValidationErrors) (h : es.all (fun p => p.2.isStr) = true) :
    flattenFuel "." true (f + 1) (JE.arr es) px result
      = assocSet result px (es.map (fun p => p.2.strVal)) := by
  simp [flattenFuel, h]

theorem flattenFuel_obj (f : Nat) (es : List (String × JE)) (px : String)
    (result : ValidationErrors) :
    flattenFuel "." true (f + 1) (JE.obj es) px result
      = es.foldl (fun r p => flattenFuel "." true f p.2 (childKey "." px p.1) r) result := rfl

theorem flatten_emit (d : Nat) :
    ∀ je fuel px (result : ValidationErrors), goodVal d je = true → d ≤ fuel → px ≠ "" →
      (∀ k ∈ (leafPaths d je).map (fun q => rejoin px q.1), k ∉ result.map Prod.fst) →
      flattenFuel "." true fuel je px result
        = result ++ (leafPaths d je).map (fun q => (rejoin px q.1, q.2)) := by
  induction d with
  | zero => intro je fuel px result h _ _ _; simp [goodVal] at h
  | succ d ih =>
      intro je fuel px result h hfuel hpx hfresh
      obtain ⟨f, rfl⟩ : ∃ f, fuel = f + 1 := ⟨fuel - 1, by omega⟩
      match je with
      | JE.s _ => simp [goodVal] at h
      | JE.arr es =>
          have hall : es.all (fun p => p.2.isStr) = true := by simpa [goodVal] using h
          rw [flattenFuel_arr_leaf f es px result hall]
          rw [assocSet_append_of_not_mem result px _ ?_]
          · simp [leafPaths, rejoin_nil]
          · refine hfresh px ?_
            show px ∈ [rejoin px []]
            exact List.mem_singleton.mpr rfl
      | JE.obj es =>
          obtain ⟨hdist, hallp⟩ := (goodVal_obj d es).mp h
          have hkeys : (es.map (fun p =>
              (((leafPaths d p.2).map
                (fun q => (rejoin (childKey "." px p.1) q.1, q.2))).map Prod.fst))).flatten
              = (leafPaths (d + 1) (JE.obj es)).map (fun q => rejoin px q.1) := by
            rw [leafPaths_obj, map_flatten_eq]
            apply congrArg List.flatten
            apply List.map_congr_left
            intro p _
            simp only [List.map_map]
            rfl
          have hvals : (es.map (fun p =>
              (leafPaths d p.2).map
                (fun q => (rejoin (childKey "." px p.1) q.1, q.2)))).flatten
              = (leafPaths (d + 1) (JE.obj es)).map (fun q => (rejoin px q.1, q.2)) := by
            rw [leafPaths_obj, map_flatten_eq]
            apply congrArg List.flatten
            apply List.map_congr_left
            intro p _
            simp only [List.map_map]
            rfl
          rw [flattenFuel_obj]
          rw [foldl_emit es
            (fun p r => flattenFuel "." true f p.2 (childKey "." px p.1) r)
            (fun p => (leafPaths d p.2).map
              (fun q => (rejoin (childKey "." px p.1) q.1, q.2)))
            result ?_ ?_ ?_]
          · rw [hvals]
          · intro p hp r hr
            simp only [List.map_map] at hr
            exact ih p.2 f (childKey "." px p.1) r (hallp p hp).2.2 (by omega)
              (childKey_ne_empty px p.1 hpx) hr
          · rw [hkeys]
            exact leafKeys_nodup (d + 1) (JE.obj es) px h hpx
          · rw [hkeys]
            exact hfresh

theorem flatten_root (d : Nat) (es : List (String × JE)) (fuel : Nat)
    (h : goodVal (d + 1) (JE.obj es) = true) (hfuel : d + 1 ≤ fuel) :
    flattenFuel "." true fuel (JE.obj es) "" []
      = (leafPaths (d + 1) (JE.obj es)).map (fun q => (rootKey q.1, q.2)) := by
  obtain ⟨f, rfl⟩ : ∃ f, fuel = f + 1 := ⟨fuel - 1, by omega⟩
  obtain ⟨hdist, hallp⟩ := (goodVal_obj d es).mp h
  have hck : ∀ k : String, childKey "." "" k = k := fun k => by simp [childKey]
  have hkeys : (es.map (fun p =>
      (((leafPaths d p.2).map (fun q => (rejoin p.1 q.1, q.2))).map Prod.fst))).flatten
      = (leafPaths (d + 1) (JE.obj es)).map (fun q => rootKey q.1) := by
    rw [leafPaths_obj, map_flatten_eq]
    apply congrArg List.flatten
    apply List.map_congr_left
    intro p _
    simp only [List.map_map]
    rfl
  have hvals : (es.map (fun p =>
      (leafPaths d p.2).map (fun q => (rejoin p.1 q.1, q.2)))).flatten
      = (leafPaths (d + 1) (JE.obj es)).map (fun q => (rootKey q.1, q.2)) := by
    rw [leafPaths_obj, map_flatten_eq]
    apply congrArg List.flatten
    apply List.map_congr_left
    intro p _
    simp only [List.map_map]
    rfl
  rw [flattenFuel_obj]
  rw [foldl_emit es (fun p r => flattenFuel "." true f p.2 (childKey "." "" p.1) r)
    (fun p => (leafPaths d p.2).map (fun q => (rejoin p.1 q.1, q.2))) [] ?_ ?_ ?_]
  · rw [hvals]
    simp
  · intro p hp r hr
    have hpgood := hallp p hp
    have hpne : p.1 ≠ "" := string_ne_empty_of_data p.1 (goodSeg_data p.1 hpgood.1).1
    simp only [hck p.1]
    simp only [List.map_map] at hr
    exact flatten_emit d p.2 f p.1 r hpgood.2.2 (by omega) hpne hr
  · rw [hkeys]
    exact rootKeys_nodup d es h
  · simp

theorem lookup_eq_none_iff {α : Type} (l : List (String × α)) (k : String) :
    List.lookup k l = none ↔ k ∉ l.map Prod.fst := by
  induction l with
  | nil => simp
  | cons p rest ih =>
      obtain ⟨k', v'⟩ := p
      rw [lookup_cons]
      by_cases h : k = k'
      · simp [h]
      · simp [h, ih]

theorem lookup_some_mem {α : Type} (l : List (String × α)) (k : String) (v : α)
    (h : List.lookup k l = some v) : (k, v) ∈ l := by
  induction l with
  | nil => simp at h
  | cons p rest ih =>
      obtain ⟨k', v'⟩ := p
      rw [lookup_cons] at h
      by_cases he : k = k'
      · rw [if_pos he] at h
        subst he
        cases h
        exact List.mem_cons_self _ _
      · rw [if_neg he] at h
        exact List.mem_cons_of_mem _ (ih h)

theorem lookup_append_left_none {α : Type} (pre l : List ( String × α)) (k : String)
    (h : k ∉ pre.map Prod.fst) : List.lookup k (pre ++ l) = List.lookup k l := by
  induction pre with
  | nil => rfl
  | cons p rest ih =>
      obtain ⟨k', v'⟩ := p
      simp only [List.map_cons, List.mem_cons] at h
      push_neg at h
      rw [List.cons_append, lookup_cons, if_neg h.1]
      exact ih h.2

theorem first_occ_split {α : Type} (l : List (String × α)) (k : String)
    (h : k ∈ l.map Prod.fst) :
    ∃ pre c post, l = pre ++ (k, c) :: post ∧ k ∉ pre.map Prod.fst := by
  induction l with
  | nil => simp at h
  | cons p rest ih =>
      obtain ⟨k', v'⟩ := p
      by_cases he : k' = k
      · subst he
        exact ⟨[], v', rest, rfl, by simp⟩
      · have hk : k ∈ rest.map Prod.fst := by
          simp only [List.map_cons, List.mem_cons] at h
          rcases h with h | h
          · exact absurd h.symm he
          · exact h
        obtain ⟨pre, c, post, heq, hpre⟩ := ih hk
        refine ⟨(k', v') :: pre, c, post, by rw [heq]; rfl, ?_⟩
        simp only [List.map_cons, List.mem_cons]
        push_neg
        exact ⟨fun hh => he hh.symm, hpre⟩

theorem assocSet_mid {α : Type} (pre : List (String × α)) (k : String) (c v : α)
    (post : List (String × α)) (h : k ∉ pre.map Prod.fst) :
    assocSet (pre ++ (k, c) :: post) k v = pre ++ (k, v) :: post := by
  induction pre with
  | nil => simp [assocSet]
  | cons p rest ih =>
      obtain ⟨k', v'⟩ := p
      simp only [List.map_cons, List.mem_cons] at h
      push_neg at h
      rw [List.cons_append, List.cons_append]
      simp only [assocSet, if_neg (show ¬ k' = k from fun hh => h.1 hh.symm)]
      rw [ih h.2]

theorem assocSet_ne_nil {α : Type} (l : List (String × α)) (k : String) (v : α) :
    assocSet l k v ≠ [] := by
  match l with
  | [] => simp [assocSet]
  | (k', v') :: rest =>
      simp only [assocSet]
      by_cases h : k' = k
      · simp [h]
      · simp [h]

theorem setNestedValue_ne_nil (es : List (String × JE)) (s : PathSeg)
    (rest : List PathSeg) (v : JE) : setNestedValue es (s :: rest) v ≠ [] := by
  match rest with
  | [] => exact assocSet_ne_nil es s.keyStr v
  | next :: rest' => exact assocSet_ne_nil es s.keyStr _

theorem distinctKeysB_append_one (ks : List String) (a : String)
    (hd : distinctKeysB ks = true) (ha : a ∉ ks) :
    distinctKeysB (ks ++ [a]) = true := by
  induction ks with
  | nil => simp [distinctKeysB]
  | cons k rest ih =>
      obtain ⟨hnotin, hrest⟩ := (distinctKeysB_cons k rest).mp hd
      have hne : a ∉ rest := fun hm => ha (List.mem_cons_of_mem k hm)
      have hka : k ≠ a := fun he => ha (he ▸ List.mem_cons_self k rest)
      rw [List.cons_append]
      apply (distinctKeysB_cons k (rest ++ [a])).mpr
      refine ⟨?_, ih hrest hne⟩
      intro hm
      rcases List.mem_append.mp hm with hm | hm
      · exact hnotin hm
      · exact hka (List.mem_singleton.mp hm)

theorem msgsToJE_good (d : Nat) (msgs : List String) :
    goodVal (d + 1) (msgsToJE msgs) = true := by
  simp only [msgsToJE, goodVal, List.all_eq_true]
  intro p hp
  obtain ⟨q, _, rfl⟩ := List.mem_map.mp hp
  rfl

theorem msgsToJE_nonEmptyNode (msgs : List String) :
    nonEmptyNode (msgsToJE msgs) = true := rfl

theorem msgsToJE_leafPaths (d : Nat) (msgs : List String) :
    leafPaths (d + 1) (msgsToJE msgs) = [([], msgs)] := by
  simp only [msgsToJE, leafPaths, List.map_map]
  have : ((fun p => p.2.strVal) ∘ fun p => ((toString p.1), JE.s p.2))
      = fun p : Nat × String => p.2 := rfl
  rw [this, List.enum_map_snd]

theorem leafPaths_obj_append (d : Nat) (l₁ l₂ : List (String × JE)) :
    leafPaths (d + 1) (JE.obj (l₁ ++ l₂))
      = leafPaths (d + 1) (JE.obj l₁) ++ leafPaths (d + 1) (JE.obj l₂) := by
  simp [leafPaths_obj, List.map_append]

theorem segsBelow_cons_same (a : String) (p q : List String) :
    segsBelow (a :: p) (a :: q) = segsBelow p q := by
  simp [segsBelow]

theorem segsBelow_refl (p : List String) : segsBelow p p = true := by
  induction p with
  | nil => rfl
  | cons a p ih => simp [segsBelow, ih]

theorem perm_insert_mid {α : Type} (A B C : List α) (x : α) :
    (A ++ ((B ++ [x]) ++ C)).Perm ((A ++ (B ++ C)) ++ [x]) := by
  have h1 : ((B ++ [x]) ++ C).Perm ((B ++ C) ++ [x]) := by
    have e1 : (B ++ [x]) ++ C = B ++ ([x] ++ C) := by rw [List.append_assoc]
    have e2 : (B ++ C) ++ [x] = B ++ (C ++ [x]) := by rw [List.append_assoc]
    rw [e1, e2]
    exact List.Perm.append_left B List.perm_append_comm
  have h2 := List.Perm.append_left A h1
  have e3 : A ++ ((B ++ C) ++ [x]) = (A ++ (B ++ C)) ++ [x] := by
    simp [List.append_assoc]
  rw [e3] at h2
  exact h2

theorem nonEmptyNode_obj (l : List (String × JE)) (h : l ≠ []) :
    nonEmptyNode (JE.obj l) = true := by
  cases l with
  | nil => exact absurd rfl h
  | cons p rest => rfl

theorem leafPaths_obj_cons (d : Nat) (p : String × JE) (l : List (String × JE)) :
    leafPaths (d + 1) (JE.obj (p :: l))
      = (leafPaths d p.2).map (fun q => (p.1 :: q.1, q.2))
        ++ leafPaths (d + 1) (JE.obj l) := by
  simp [leafPaths_obj]

theorem setNestedValue_one (es : List (String × JE)) (a : String) (v : JE) :
    setNestedValue es [PathSeg.str a] v = assocSet es a v := rfl

theorem setNestedValue_none (es : List (String × JE)) (a b : String)
    (rest : List PathSeg) (v : JE) (h : List.lookup a es = none) :
    setNestedValue es (PathSeg.str a :: PathSeg.str b :: rest) v
      = assocSet es a (JE.obj (setNestedValue [] (PathSeg.str b :: rest) v)) := by
  simp only [setNestedValue, PathSeg.keyStr, h]
  rfl

theorem setNestedValue_some (es : List (String × JE)) (a b : String)
    (rest : List PathSeg) (v : JE) (es_c : List (String × JE))
    (h : List.lookup a es = some (JE.obj es_c)) :
    setNestedValue es (PathSeg.str a :: PathSeg.str b :: rest) v
      = assocSet es a (JE.obj (setNestedValue es_c (PathSeg.str b :: rest) v)) := by
  simp only [setNestedValue, PathSeg.keyStr, h]
  rfl

theorem insert_leaf (parts : List String) :
    ∀ (es : List (String × JE)) (d : Nat) (msgs : List String),
      goodVal (d + 1) (JE.obj es) = true →
      parts.length ≤ d →
      parts ≠ [] →
      (∀ s ∈ parts, goodSegB s = true) →
      (∀ q ∈ leafPaths (d + 1) (JE.obj es),
        segsBelow parts q.1 = false ∧ segsBelow q.1 parts = false) →
      goodVal (d + 1)
          (JE.obj (setNestedValue es (parts.map PathSeg.str) (msgsToJE msgs))) = true ∧
      (leafPaths (d + 1)
          (JE.obj (setNestedValue es (parts.map PathSeg.str) (msgsToJE msgs)))).Perm
        (leafPaths (d + 1) (JE.obj es) ++ [(parts, msgs)]) := by
  induction parts with
  | nil => intro es d msgs _ _ hne _ _; exact absurd rfl hne
  | cons a rest ih =>
      intro es d msgs hgood hlen hne hsegs hconf
      obtain ⟨hdist, hallp⟩ := (goodVal_obj d es).mp hgood
      have hga : goodSegB a = true := hsegs a (List.mem_cons_self a rest)
      cases rest with
      | nil =>
          have hd1 : 1 ≤ d := by simpa using hlen
          obtain ⟨d', rfl⟩ : ∃ d', d = d' + 1 := ⟨d - 1, by omega⟩
          have hfresh : a ∉ es.map Prod.fst := by
            intro hmem
            obtain ⟨p, hpmem, hpa⟩ := List.mem_map.mp hmem
            obtain ⟨hgs, hnen, hgc⟩ := hallp p hpmem
            have hlp := leafPaths_ne_nil (d' + 1) p.2 hgc hnen
            obtain ⟨q, hq⟩ : ∃ q, q ∈ leafPaths (d' + 1) p.2 := by
              cases hlq : leafPaths (d' + 1) p.2 with
              | nil => exact absurd hlq hlp
              | cons q t => exact ⟨q, List.mem_cons_self _ _⟩
            have hmem2 : (p.1 :: q.1, q.2) ∈ leafPaths (d' + 1 + 1) (JE.obj es) :=
              (mem_leafPaths_obj (d' + 1) es _).mpr ⟨p, hpmem, q, hq, rfl⟩
            have hfalse := (hconf _ hmem2).1
            rw [hpa] at hfalse
            simp [segsBelow] at hfalse
          have heq : setNestedValue es ((a :: ([] : List String)).map PathSeg.str)
              (msgsToJE msgs) = es ++ [(a, msgsToJE msgs)] := by
            rw [List.map_cons, List.map_nil, setNestedValue_one]
            exact assocSet_append_of_not_mem es a _ hfresh
          rw [heq]
          constructor
          · apply (goodVal_obj _ _).mpr
            constructor
            · rw [List.map_append]
              exact distinctKeysB_append_one _ a hdist hfresh
            · intro p hp
              rcases List.mem_append.mp hp with hp | hp
              · exact hallp p hp
              · rw [List.mem_singleton] at hp
                subst hp
                exact ⟨hga, msgsToJE_nonEmptyNode msgs, msgsToJE_good d' msgs⟩
          · rw [leafPaths_obj_append]
            have hsing : leafPaths (d' + 1 + 1) (JE.obj [(a, msgsToJE msgs)])
                = [([a], msgs)] := by
              rw [leafPaths_obj]
              simp [msgsToJE_leafPaths d' msgs]
            rw [hsing]
      | cons b rest' =>
          have hd2 : 2 ≤ d := by
            simp only [List.length_cons] at hlen
            omega
          obtain ⟨d', rfl⟩ : ∃ d', d = d' + 1 := ⟨d - 1, by omega⟩
          have hlen' : (b :: rest').length ≤ d' := by
            simp only [List.length_cons] at hlen ⊢
            omega
          have hsegs' : ∀ s ∈ b :: rest', goodSegB s = true :=
            fun s hs => hsegs s (List.mem_cons_of_mem a hs)
          cases hlu : List.lookup a es with
          | none =>
              have hfreshk : a ∉ es.map Prod.fst := (lookup_eq_none_iff es a).mp hlu
              have hempty : goodVal (d' + 1) (JE.obj []) = true := by
                simp [goodVal, distinctKeysB]
              have hIH := ih [] d' msgs hempty hlen' (by simp) hsegs'
                (by intro q hq; rw [leafPaths_obj] at hq; simp at hq)
              obtain ⟨hgood_c, hperm_c⟩ := hIH
              rw [List.map_cons, List.map_cons,
                setNestedValue_none es a b (rest'.map PathSeg.str) _ hlu]
              have hinner_ne := setNestedValue_ne_nil ([] : List (String × JE))
                (PathSeg.str b) (rest'.map PathSeg.str) (msgsToJE msgs)
              rw [assocSet_append_of_not_mem es a _ hfreshk]
              constructor
              · apply (goodVal_obj _ _).mpr
                constructor
                · rw [List.map_append]
                  exact distinctKeysB_append_one _ a hdist hfreshk
                · intro p hp
                  rcases List.mem_append.mp hp with hp | hp
                  · exact hallp p hp
                  · rw [List.mem_singleton] at hp
                    subst hp
                    exact ⟨hga, nonEmptyNode_obj _ hinner_ne, hgood_c⟩
              · rw [leafPaths_obj_append]
                have hlift : (leafPaths (d' + 1 + 1)
                    (JE.obj [(a, JE.obj (setNestedValue []
                      (PathSeg.str b :: rest'.map PathSeg.str) (msgsToJE msgs)))])).Perm
                    [(a :: b :: rest', msgs)] := by
                  rw [leafPaths_obj]
                  simp only [List.map_cons, List.map_nil, List.flatten_cons,
                    List.flatten_nil, List.append_nil]
                  have := List.Perm.map (fun q : List String × List String =>
                    (a :: q.1, q.2)) hperm_c
                  simp only [leafPaths_obj, List.map_nil, List.flatten_nil,
                    List.nil_append, List.map_cons] at this
                  exact this
                have := List.Perm.append_left (leafPaths (d' + 1 + 1) (JE.obj es)) hlift
                exact this
          | some c =>
              have hcmem : (a, c) ∈ es := lookup_some_mem es a c hlu
              obtain ⟨hgs_a, hnen_c, hgc⟩ := hallp (a, c) hcmem
              cases c with
              | s str => simp [goodVal] at hgc
              | arr es_c =>
                  exfalso
                  have hmem2 : ((a, JE.arr es_c).1 :: ([] : List String),
                      es_c.map (fun p => p.2.strVal)) ∈ leafPaths (d' + 1 + 1) (JE.obj es) := by
                    apply (mem_leafPaths_obj (d' + 1) es _).mpr
                    refine ⟨(a, JE.arr es_c), hcmem, ([], es_c.map (fun p => p.2.strVal)), ?_, rfl⟩
                    simp [leafPaths]
                  have hfalse := (hconf _ hmem2).2
                  simp [segsBelow] at hfalse
              | obj es_c =>
                  have hconf_c : ∀ q ∈ leafPaths (d' + 1) (JE.obj es_c),
                      segsBelow (b :: rest') q.1 = false ∧
                      segsBelow q.1 (b :: rest') = false := by
                    intro q hq
                    have hmem2 : (a :: q.1, q.2) ∈ leafPaths (d' + 1 + 1) (JE.obj es) :=
                      (mem_leafPaths_obj (d' + 1) es _).mpr
                        ⟨(a, JE.obj es_c), hcmem, q, hq, rfl⟩
                    have h1 := (hconf _ hmem2).1
                    have h2 := (hconf _ hmem2).2
                    rw [segsBelow_cons_same] at h1 h2
                    exact ⟨h1, h2⟩
                  obtain ⟨hgood_c', hperm_c⟩ := ih es_c d' msgs hgc hlen' (by simp)
                    hsegs' hconf_c
                  rw [List.map_cons, List.map_cons,
                    setNestedValue_some es a b (rest'.map PathSeg.str) _ es_c hlu]
                  obtain ⟨pre, c₀, post, heqes, hpre⟩ := first_occ_split es a
                    (List.mem_map.mpr ⟨(a, JE.obj es_c), hcmem, rfl⟩)
                  have hc₀ : c₀ = JE.obj es_c := by
                    have hlu' := hlu
                    rw [heqes, lookup_append_left_none pre _ a hpre, lookup_cons,
                      if_pos rfl] at hlu'
                    exact (Option.some.inj hlu')
                  subst hc₀
                  rw [heqes, assocSet_mid pre a _ _ post hpre]
                  have hinner_ne := setNestedValue_ne_nil es_c
                    (PathSeg.str b) (rest'.map PathSeg.str) (msgsToJE msgs)
                  constructor
                  · apply (goodVal_obj _ _).mpr
                    constructor
                    · have hdist' := hdist
                      rw [heqes] at hdist'
                      simp only [List.map_append, List.map_cons] at hdist' ⊢
                      exact hdist'
                    · intro p hp
                      rcases List.mem_append.mp hp with hp | hp
                      · exact hallp p (by rw [heqes]; exact List.mem_append_left _ hp)
                      · rcases List.mem_cons.mp hp with hp | hp
                        · subst hp
                          exact ⟨hgs_a, nonEmptyNode_obj _ hinner_ne, hgood_c'⟩
                        · exact hallp p (by
                            rw [heqes]
                            exact List.mem_append_right _ (List.mem_cons_of_mem _ hp))
                  · rw [leafPaths_obj_append, leafPaths_obj_cons,
                      leafPaths_obj_append, leafPaths_obj_cons]
                    have hlift : ((leafPaths (d' + 1)
                        (JE.obj (setNestedValue es_c
                          (PathSeg.str b :: rest'.map PathSeg.str) (msgsToJE msgs)))).map
                        (fun q => (a :: q.1, q.2))).Perm
                        ((leafPaths (d' + 1) (JE.obj es_c)).map
                          (fun q => (a :: q.1, q.2)) ++ [(a :: b :: rest', msgs)]) := by
                      have := List.Perm.map (fun q : List String × List String =>
                        (a :: q.1, q.2)) hperm_c
                      rw [List.map_append] at this
                      simpa using this
                    have h2 := List.Perm.append_right
                      (leafPaths (d' + 1 + 1) (JE.obj post)) hlift
                    have h3 := List.Perm.append_left
                      (leafPaths (d' + 1 + 1) (JE.obj pre)) h2
                    refine h3.trans ?_
                    exact perm_insert_mid _ _ _ _

theorem foldl_triple_nested (errors : ValidationErrors) :
    ∀ acc : ValidationErrors × List (String × JE) × List String,
      (errors.foldl
        (fun (acc : ValidationErrors × List (String × JE) × List String) p =>
          (assocSet acc.1 p.1 p.2,
            setNestedValue acc.2.1 (parsePath p.1) (msgsToJE p.2),
            acc.2.2 ++ p.2)) acc).2.1
      = errors.foldl (fun T p => setNestedValue T (parsePath p.1) (msgsToJE p.2)) acc.2.1 := by
  induction errors with
  | nil => intro acc; rfl
  | cons p rest ih =>
      intro acc
      simp only [List.foldl_cons]
      exact ih _

theorem formatErrors_nested_eq (errors : ValidationErrors) :
    (formatErrors errors {}).nested
      = errors.foldl (fun T p => setNestedValue T (parsePath p.1) (msgsToJE p.2)) [] := by
  exact foldl_triple_nested errors ([], [], [])

theorem parsePart_plain (part : String) (h1 : isDigits part = false)
    (h2 : bracketSplit part = none) : parsePart part = [PathSeg.str part] := by
  simp [parsePart, h2, h1]

theorem GoodKeyB_parts (k : String) (h : GoodKeyB k = true) :
    ∀ part ∈ splitOnDot k,
      goodSegB part = true ∧ isDigits part = false ∧ bracketSplit part = none := by
  intro part hp
  simp only [GoodKeyB, List.all_eq_true] at h
  have := h part hp
  simp only [Bool.and_eq_true, Bool.not_eq_true', Option.isNone_iff_eq_none] at this
  exact ⟨this.1.1, this.1.2, this.2⟩

theorem parsePath_good (k : String) (h : GoodKeyB k = true) :
    parsePath k = (splitOnDot k).map PathSeg.str := by
  have hall : ∀ part ∈ splitOnDot k, parsePart part = [PathSeg.str part] := by
    intro part hp
    obtain ⟨_, h1, h2⟩ := GoodKeyB_parts k h part hp
    exact parsePart_plain part h1 h2
  show ((splitOnDot k).map parsePart).flatten = _
  rw [List.map_congr_left hall]
  have : ∀ l : List String,
      ((l.map (fun part => [PathSeg.str part])).flatten) = l.map PathSeg.str := by
    intro l
    induction l with
    | nil => rfl
    | cons x xs ihx => simp [ihx]
  exact this _

theorem splitOnDot_ne_nil (k : String) : splitOnDot k ≠ [] := by
  simp only [splitOnDot, ne_eq, List.map_eq_nil_iff]
  exact splitCharsOnDot_ne_nil k.data

theorem rootKey_splitOnDot (k : String)
    (h : ∀ part ∈ splitOnDot k, goodSegB part = true) :
    rootKey (splitOnDot k) = k := by
  apply String.ext
  cases hs : splitCharsOnDot k.data with
  | nil => exact absurd hs (splitCharsOnDot_ne_nil k.data)
  | cons c₀ crest =>
      have hsplit : splitOnDot k = String.mk c₀ :: crest.map String.mk := by
        simp [splitOnDot, hs]
      rw [hsplit]
      have ha : goodSegB (String.mk c₀) = true := by
        apply h
        rw [hsplit]
        exact List.mem_cons_self _ _
      have hane : String.mk c₀ ≠ "" := string_ne_empty_of_data _ (goodSeg_data _ ha).1
      show (rejoin (String.mk c₀) (crest.map String.mk)).data = k.data
      rw [rejoin_data _ _ hane]
      have hmaps : (crest.map String.mk).map String.data = crest := by
        rw [List.map_map]
        have : (String.data ∘ String.mk) = (fun l : List Char => l) := rfl
        rw [this, List.map_id']
      rw [hmaps]
      have hjoin := charJoinParts_splitCharsOnDot k.data
      rw [hs] at hjoin
      simpa [charJoinParts] using hjoin

theorem lookup_some_iff_mem_of_nodup {α : Type} (l : List (String × α)) (k : String)
    (v : α) (hn : (l.map Prod.fst).Nodup) :
    List.lookup k l = some v ↔ (k, v) ∈ l := by
  constructor
  · exact lookup_some_mem l k v
  · intro hmem
    induction l with
    | nil => simp at hmem
    | cons p rest ih =>
        obtain ⟨k', v'⟩ := p
        simp only [List.map_cons, List.nodup_cons] at hn
        rcases List.mem_cons.mp hmem with he | hmem'
        · cases he
          rw [lookup_cons, if_pos rfl]
        · have hkne : k ≠ k' := by
            intro he
            subst he
            exact hn.1 (List.mem_map.mpr ⟨(k, v), hmem', rfl⟩)
          rw [lookup_cons, if_neg hkne]
          exact ih hn.2 hmem'

theorem lookup_eq_of_perm {α : Type} (l₁ l₂ : List (String × α))
    (hp : l₁.Perm l₂) (hn : (l₁.map Prod.fst).Nodup) (k : String) :
    List.lookup k l₁ = List.lookup k l₂ := by
  have hn₂ : (l₂.map Prod.fst).Nodup := ((hp.map Prod.fst).nodup_iff).mp hn
  cases h1 : List.lookup k l₁ with
  | some v =>
      rw [(lookup_some_iff_mem_of_nodup l₂ k v hn₂).mpr
        (hp.mem_iff.mp (lookup_some_mem l₁ k v h1))]
  | none =>
      have := (lookup_eq_none_iff l₁ k).mp h1
      rw [(lookup_eq_none_iff l₂ k).mpr
        (fun hm => this (((hp.map Prod.fst).mem_iff).mpr hm))]

theorem noBelowPairs_iff (l : List (List String)) :
    noBelowPairs l = true ↔
      l.Pairwise (fun p q => segsBelow p q = false ∧ segsBelow q p = false) := by
  induction l with
  | nil => simp [noBelowPairs]
  | cons p ps ih =>
      simp only [noBelowPairs, Bool.and_eq_true, List.all_eq_true, List.pairwise_cons, ih]
      constructor
      · rintro ⟨h1, h2⟩
        refine ⟨fun q hq => ?_, h2⟩
        have := h1 q hq
        simp only [Bool.and_eq_true, Bool.not_eq_true'] at this
        exact this
      · rintro ⟨h1, h2⟩
        refine ⟨fun q hq => ?_, h2⟩
        have := h1 q hq
        simp only [Bool.and_eq_true, Bool.not_eq_true']
        exact this

theorem build_trie (errors : ValidationErrors) :
    ∀ (T : List (String × JE)) (d : Nat) (old : List (List String × List String)),
      goodVal (d + 1) (JE.obj T) = true →
      (leafPaths (d + 1) (JE.obj T)).Perm old →
      (∀ p ∈ errors, GoodKeyB p.1 = true) →
      (∀ p ∈ errors, (splitOnDot p.1).length ≤ d) →
      (old.map Prod.fst ++ errors.map (fun p => splitOnDot p.1)).Pairwise
        (fun p q => segsBelow p q = false ∧ segsBelow q p = false) →
      goodVal (d + 1) (JE.obj (errors.foldl
        (fun T p => setNestedValue T (parsePath p.1) (msgsToJE p.2)) T)) = true ∧
      (leafPaths (d + 1) (JE.obj (errors.foldl
        (fun T p => setNestedValue T (parsePath p.1) (msgsToJE p.2)) T))).Perm
        (old ++ errors.map (fun p => (splitOnDot p.1, p.2))) := by
  induction errors with
  | nil =>
      intro T d old hgood hperm _ _ _
      simp only [List.foldl_nil, List.map_nil, List.append_nil]
      exact ⟨hgood, hperm⟩
  | cons e rest ih =>
      intro T d old hgood hperm hkeys hlen hpw
      simp only [List.foldl_cons]
      have hke : GoodKeyB e.1 = true := hkeys e (List.mem_cons_self e rest)
      have hsegs : ∀ s ∈ splitOnDot e.1, goodSegB s = true :=
        fun s hs => (GoodKeyB_parts e.1 hke s hs).1
      rw [parsePath_good e.1 hke]
      simp only [List.map_cons] at hpw
      rw [List.pairwise_append] at hpw
      obtain ⟨hA, hxB, hAB⟩ := hpw
      rw [List.pairwise_cons] at hxB
      obtain ⟨hxvsB, hB⟩ := hxB
      have hconf : ∀ q ∈ leafPaths (d + 1) (JE.obj T),
          segsBelow (splitOnDot e.1) q.1 = false ∧
          segsBelow q.1 (splitOnDot e.1) = false := by
        intro q hq
        have hqold : q ∈ old := hperm.mem_iff.mp hq
        have hq1 : q.1 ∈ old.map Prod.fst := List.mem_map.mpr ⟨q, hqold, rfl⟩
        have := hAB q.1 hq1 (splitOnDot e.1)
          (List.mem_cons_self (splitOnDot e.1) (rest.map (fun p => splitOnDot p.1)))
        exact ⟨this.2, this.1⟩
      obtain ⟨hgood', hperm'⟩ := insert_leaf (splitOnDot e.1) T d e.2 hgood
        (hlen e (List.mem_cons_self e rest)) (splitOnDot_ne_nil e.1) hsegs hconf
      have hperm'' : (leafPaths (d + 1) (JE.obj (setNestedValue T
          ((splitOnDot e.1).map PathSeg.str) (msgsToJE e.2)))).Perm
          (old ++ [(splitOnDot e.1, e.2)]) :=
        hperm'.trans (hperm.append_right [(splitOnDot e.1, e.2)])
      have hpwrec : ((old ++ [(splitOnDot e.1, e.2)]).map Prod.fst
          ++ rest.map (fun p => splitOnDot p.1)).Pairwise
          (fun p q => segsBelow p q = false ∧ segsBelow q p = false) := by
        rw [List.map_append]
        simp only [List.map_cons, List.map_nil]
        rw [List.append_assoc, List.singleton_append]
        rw [List.pairwise_append]
        refine ⟨hA, ?_, hAB⟩
        rw [List.pairwise_cons]
        exact ⟨hxvsB, hB⟩
      obtain ⟨hg, hp2⟩ := ih (setNestedValue T ((splitOnDot e.1).map PathSeg.str)
        (msgsToJE e.2)) d (old ++ [(splitOnDot e.1, e.2)]) hgood' hperm''
        (fun p hp => hkeys p (List.mem_cons_of_mem e hp))
        (fun p hp => hlen p (List.mem_cons_of_mem e hp)) hpwrec
      refine ⟨hg, hp2.trans ?_⟩
      rw [List.append_assoc, List.singleton_append, List.map_cons]

/-- C9 (amended): the flatten/format round trip holds on the conflict-free
key class: if every key is a dot path of plain object segments (non-empty,
not all digits, no bracket notation), no key's segment path is an initial
run of another's, each key's segment count is at most `d`, and the flatten
fuel exceeds `d`, then looking up any key in
`flattenErrors (formatErrors errors).nested` (both with default options)
agrees with looking it up in the original errors object.  (As JavaScript
objects the two are equal; the JavaScript iteration order of the flattened
copy is depth-first over the nested structure, so the Lean association
lists agree up to permutation and are compared by lookup.) -/
theorem formatErrors_flatten_roundtrip (errors : ValidationErrors) (d fuel : Nat)
    (hkeys : ∀ p ∈ errors, GoodKeyB p.1 = true)
    (hlen : ∀ p ∈ errors, (splitOnDot p.1).length ≤ d)
    (hnb : noBelowPairs (errors.map (fun p => splitOnDot p.1)) = true)
    (hfuel : d + 1 ≤ fuel) (K : String) :
    List.lookup K (flattenErrors fuel (formatErrors errors {}).nested {})
      = List.lookup K errors := by
  have hinit_good : goodVal (d + 1) (JE.obj []) = true := by
    simp [goodVal, distinctKeysB]
  have hinit_perm : (leafPaths (d + 1) (JE.obj [])).Perm
      ([] : List (List String × List String)) := by
    rw [leafPaths_obj]
    simp
  have hpw := (noBelowPairs_iff _).mp hnb
  obtain ⟨hgood, hperm⟩ := build_trie errors [] d [] hinit_good hinit_perm hkeys hlen
    (by simpa using hpw)
  rw [formatErrors_nested_eq]
  have hflat : flattenErrors fuel (errors.foldl
      (fun T p => setNestedValue T (parsePath p.1) (msgsToJE p.2)) []) {}
      = (leafPaths (d + 1) (JE.obj (errors.foldl
          (fun T p => setNestedValue T (parsePath p.1) (msgsToJE p.2)) []))).map
        (fun q => (rootKey q.1, q.2)) := by
    show flattenFuel "." true fuel (JE.obj _) "" [] = _
    exact flatten_root d _ fuel hgood hfuel
  rw [hflat]
  have hmapped := List.Perm.map
    (fun q : List String × List String => (rootKey q.1, q.2)) hperm
  simp only [List.nil_append] at hmapped
  have hid : (errors.map (fun p => (splitOnDot p.1, p.2))).map
      (fun q : List String × List String => (rootKey q.1, q.2)) = errors := by
    rw [List.map_map]
    have hc : ∀ p ∈ errors,
        ((fun q : List String × List String => (rootKey q.1, q.2)) ∘
          (fun p : String × List String => (splitOnDot p.1, p.2))) p
          = (fun p : String × List String => p) p := by
      intro p hp
      simp only [Function.comp]
      rw [rootKey_splitOnDot p.1 (fun s hs => (GoodKeyB_parts p.1 (hkeys p hp) s hs).1)]
    rw [List.map_congr_left hc, List.map_id']
  rw [hid] at hmapped
  have hnodup : (((leafPaths (d + 1) (JE.obj (errors.foldl
      (fun T p => setNestedValue T (parsePath p.1) (msgsToJE p.2)) []))).map
        (fun q => (rootKey q.1, q.2))).map Prod.fst).Nodup := by
    rw [List.map_map]
    exact rootKeys_nodup d _ hgood
  exact lookup_eq_of_perm _ _ hmapped hnodup K

theorem formatErrors_flatten_roundtrip_witness :
    (∀ p ∈ ([("user.email", ["bad"]), ("name", ["short"])] : ValidationErrors),
      GoodKeyB p.1 = true) ∧
    noBelowPairs (([("user.email", ["bad"]), ("name", ["short"])] :
      ValidationErrors).map (fun p => splitOnDot p.1)) = true ∧
    List.lookup "user.email"
      (flattenErrors 5
        (formatErrors [("user.email", ["bad"]), ("name", ["short"])] {}).nested {})
      = some ["bad"] :=
  ⟨by decide, by decide, by
    rw [formatErrors_flatten_roundtrip
      [("user.email", ["bad"]), ("name", ["short"])] 2 5
      (by decide) (by decide) (by decide) (by decide) "user.email"]
    decide⟩
